import Mathlib

/-!
Verification of the xsd_merge repository: a shallow embedding of the two
utilities `xsd_parse.process_xsd_file` (type-narrowing rewriter) and
`xsd_merge.XSDMerger` (schema merger), together with proofs of the claims
about them.

XML documents are modelled as ordered trees of elements.  Element tags are
the lxml tag strings ("Clark notation": a namespaced tag is written
"\x7buri\x7dlocal", a tag with no namespace is the bare local name), attributes
are association lists, children are ordered lists.  XPath descendant queries
(`.//tag`, `.//tag[@name='n']`) are modelled as filters over the preorder
list of paths of the tree; per XPath 1.0, a name without a namespace prefix
matches only elements outside any namespace, which the bare-local-name tag
encoding captures directly.  Python strings are modelled as Lean `String`
with `startswith`/`endswith` expressed through the underlying character
lists.  Python sets whose iteration order is observed (the initial
reference set of the rewriter) are modelled as insertion-ordered
duplicate-free lists.  `sys.exit(1)` in the merger is modelled as
`Except.error ()`, and a file that fails to parse as a `none` input.

The worklist loop of the rewriter is written with explicit fuel and returns
`none` on fuel exhaustion; the termination theorem proves that the fuel
chosen by `processXsd` always suffices.
-/

/-- Python `s.startswith(p)` on the character sequence of the string. -/
def pyStartsWith (s p : String) : Bool := p.data.isPrefixOf s.data

/-- Python `s.endswith(p)`: `p` equals the last `len(p)` characters of `s`. -/
def pyEndsWith (s p : String) : Bool :=
  decide (p.data.length ≤ s.data.length ∧
    s.data.drop (s.data.length - p.data.length) = p.data)

/-- Lookup in an attribute association list (lxml `elem.get(key)`). -/
def getA (a : List (String × String)) (k : String) : Option String :=
  (a.find? (fun kv => kv.1 == k)).map (fun kv => kv.2)

/-- Replace the value of key `k` (or append it) in an attribute list
(lxml `elem.set(key, value)`). -/
def setKey : List (String × String) → String → String → List (String × String)
  | [], k, v => [(k, v)]
  | kv :: rest, k, v =>
    if kv.1 == k then (k, v) :: rest else kv :: setKey rest k v

/-- An XML element: lxml tag string, attributes, ordered children. -/
inductive XElem : Type where
  | node (tag : String) (attrs : List (String × String)) (children : List XElem)

/-- The tag string of an element. -/
def XElem.tag : XElem → String
  | .node t _ _ => t

/-- The attribute list of an element. -/
def XElem.attrs : XElem → List (String × String)
  | .node _ a _ => a

/-- The child list of an element. -/
def XElem.children : XElem → List XElem
  | .node _ _ c => c

/-- lxml `elem.get(k)`. -/
def XElem.get (e : XElem) (k : String) : Option String := getA e.attrs k

/-- lxml `elem.set(k, v)`. -/
def XElem.set : XElem → String → String → XElem
  | .node t a c, k, v => .node t (setKey a k v) c

/-- A position in a tree: the list of child indices from the root. -/
abbrev TPath := List Nat

/-- Replace the element at one index of a list by applying `f` to it. -/
def modifyIdx (f : α → α) : List α → Nat → List α
  | [], _ => []
  | a :: as, 0 => f a :: as
  | a :: as, n + 1 => a :: modifyIdx f as n

mutual

/-- The paths of every node of the tree (the node itself included),
in document (preorder) order. -/
def allPaths : XElem → List TPath
  | .node _ _ cs => [] :: allPathsList 0 cs

/-- The paths of every node of a list of sibling subtrees, the first
sibling having child index `i`. -/
def allPathsList : Nat → List XElem → List TPath
  | _, [] => []
  | i, c :: cs => (allPaths c).map (fun p => i :: p) ++ allPathsList (i + 1) cs

end

/-- The node of the tree at a path, when the path is valid. -/
def getAt : XElem → TPath → Option XElem
  | e, [] => some e
  | .node _ _ cs, i :: p =>
    match cs[i]? with
    | some c => getAt c p
    | none => none

/-- Apply `f` to the node at a path (identity when the path is invalid). -/
def modifyAt (f : XElem → XElem) : TPath → XElem → XElem
  | [], e => f e
  | i :: p, .node t a cs => .node t a (modifyIdx (modifyAt f p) cs i)

/-- In-place `node.set(k, v)` at a path of the tree. -/
def setAt (k v : String) (q : TPath) (t : XElem) : XElem :=
  modifyAt (fun e => e.set k v) q t

/-- In-place `elem.set('type', v)` at a path: the only mutation the
rewriter ever performs. -/
def rewriteAt (t : XElem) (q : TPath) (v : String) : XElem :=
  setAt "type" v q t

/-- The tag of the node at a path. -/
def tagAt (t : XElem) (p : TPath) : Option String := (getAt t p).map XElem.tag

/-- The attribute list of the node at a path. -/
def attrsAt (t : XElem) (p : TPath) : Option (List (String × String)) :=
  (getAt t p).map XElem.attrs

/-- `node.get(k)` at a path. -/
def attrAt (t : XElem) (p : TPath) (k : String) : Option String :=
  (getAt t p).bind (fun e => e.get k)

/-- `elem.get('type')` at a path. -/
def typeAt (t : XElem) (p : TPath) : Option String := attrAt t p "type"

/-- `elem.get('name')` at a path. -/
def nameAt (t : XElem) (p : TPath) : Option String := attrAt t p "name"

/-- The XSD namespace URI (`xsd_parse.py` line 16). -/
def xsdURI : String := "http://www.w3.org/2001/XMLSchema"

/-- Clark-notation tag for a local name in the XSD namespace. -/
def clarkTag (lname : String) : String := "\x7b" ++ xsdURI ++ "\x7d" ++ lname

/-- The tag matched by the XPath name `pfx:lname` (namespaces map binding
`pfx` to the XSD namespace) or, for an empty prefix, the bare XPath name
`lname`, which per XPath 1.0 matches only no-namespace elements. -/
def xpathTag (pfx lname : String) : String :=
  if pfx = "" then lname else clarkTag lname

/-- Tag matched by the rewriter's `element` XPath step. -/
def elemTag (pfx : String) : String := xpathTag pfx "element"

/-- Tag matched by the rewriter's `complexType` XPath step. -/
def ctTag (pfx : String) : String := xpathTag pfx "complexType"

/-- Paths of all proper descendants of the node at `d`, in document order:
the XPath `.//` axis from that node. -/
def descPathsFrom (t : XElem) (d : TPath) : List TPath :=
  (allPaths t).filter (fun p => d.isPrefixOf p && p != d)

/-- `ct.xpath(".//element")` (or the unprefixed form): paths of descendant
element declarations of the node at `d`. -/
def elemPathsUnder (pfx : String) (t : XElem) (d : TPath) : List TPath :=
  (descPathsFrom t d).filter (fun p => tagAt t p == some (elemTag pfx))

/-- `root.xpath(".//complexType[@name='n']")` (prefixed or unprefixed):
document-order paths of complexType declarations named `n`. -/
def ctFind (pfx : String) (t : XElem) (n : String) : List TPath :=
  (descPathsFrom t []).filter
    (fun p => tagAt t p == some (ctTag pfx) && nameAt t p == some n)

/-- `root.xpath(...)[0]` guarded by `if complex_type_elem:`: the first
complexType declaration named `n`, if any (`xsd_parse.py` lines 68-69). -/
def findFirstCT (pfx : String) (t : XElem) (n : String) : Option TPath :=
  (ctFind pfx t n).head?

/-- The `getCommencementsData` complexType occurrences
(`xsd_parse.py` line 36). -/
def gcFind (pfx : String) (t : XElem) : List TPath :=
  ctFind pfx t "getCommencementsData"

/-- A parsed schema document: the root element together with the root's
namespace map `root.nsmap` (prefix `none` is the default namespace). -/
structure XDoc : Type where
  nsmap : List (Option String × String)
  root : XElem

/-- Resolution of the XSD namespace prefix from `root.nsmap`
(`xsd_parse.py` lines 13-25): the first binding of the XSD URI is taken;
when that binding is the default namespace the prefix becomes `""`. -/
def findXsPfx (ns : List (Option String × String)) : Option String :=
  match ns.find? (fun b => b.2 == xsdURI) with
  | some (some p, _) => some p
  | some (none, _) => some ""
  | none => none

/-- The narrow-target type list `[f"{xs_prefix}:integer", ...]`
(`xsd_parse.py` lines 84-85 and 99-100); `pc` is `xs_prefix + ":"`. -/
def narrowList (pc : String) : List String :=
  [pc ++ "integer", pc ++ "boolean", pc ++ "dateTime", pc ++ "date"]

/-- The narrowing of one optional type value: a narrow-target primitive
becomes the prefixed string primitive, anything else is unchanged. -/
def rwVal (pc : String) : Option String → Option String
  | none => none
  | some v => some (if v ∈ narrowList pc then pc ++ "string" else v)

/-- One step of the initial reference collection (`xsd_parse.py`
lines 50-53): record a truthy type attribute that does not start with the
XSD prefix.  The Python `set` is modelled as an insertion-ordered
duplicate-free list (set iteration order is not observable in the claims). -/
def collectStep (pc : String) (t : XElem) (acc : List String) (q : TPath) :
    List String :=
  match typeAt t q with
  | none => acc
  | some v =>
    if v ≠ "" ∧ pyStartsWith v pc = false ∧ v ∉ acc then acc ++ [v] else acc

/-- Lines 40-56: the initial work queue, collected from every element
declaration nested in any `getCommencementsData` occurrence. -/
def collectRefs (pc pfx : String) (t : XElem) (gcs : List TPath) :
    List String :=
  gcs.foldl (fun acc g => (elemPathsUnder pfx t g).foldl (collectStep pc t) acc) []

/-- Lines 77-86, one nested element: read its type attribute once, enqueue
it when it is a further unvisited non-primitive reference, and narrow it in
place when it is a narrow-target primitive. -/
def visitStep (pc : String) (processed : List String)
    (acc : XElem × List String) (q : TPath) : XElem × List String :=
  match typeAt acc.1 q with
  | none => acc
  | some v =>
    let items :=
      if v ≠ "" ∧ pyStartsWith v pc = false ∧ v ∉ processed
      then acc.2 ++ [v] else acc.2
    let t :=
      if v ∈ narrowList pc then rewriteAt acc.1 q (pc ++ "string") else acc.1
    (t, items)

/-- Lines 70-86: process every element declaration nested in the
complexType definition at `d`, returning the mutated tree and the names
appended to the work queue. -/
def visitDef (pc pfx : String) (t : XElem) (d : TPath)
    (processed : List String) : XElem × List String :=
  (elemPathsUnder pfx t d).foldl (visitStep pc processed) (t, [])

/-- Lines 60-86: the worklist loop.  `pop(0)` takes the queue head, new
references are appended at the end, a popped name already in
`processed_types` is skipped, and a popped name whose complexType
definition does not exist is marked and otherwise ignored.  Fuel
exhaustion yields `none`; `processXsd` always supplies enough fuel. -/
def bfsLoop (pc pfx : String) :
    Nat → List String → List String → XElem → Option (XElem × List String)
  | 0, _, _, _ => none
  | _ + 1, [], processed, t => some (t, processed)
  | fuel + 1, cur :: rest, processed, t =>
    if cur ∈ processed then bfsLoop pc pfx fuel rest processed t
    else
      match findFirstCT pfx t cur with
      | none => bfsLoop pc pfx fuel rest (cur :: processed) t
      | some d =>
        let r := visitDef pc pfx t d (cur :: processed)
        bfsLoop pc pfx fuel (rest ++ r.2) (cur :: processed) r.1

/-- Lines 95-102, one direct element: narrow its type attribute in place
when it is a narrow-target primitive. -/
def finalStep (pc : String) (t : XElem) (q : TPath) : XElem :=
  match typeAt t q with
  | none => t
  | some v =>
    if v ≠ "" ∧ v ∈ narrowList pc then rewriteAt t q (pc ++ "string") else t

/-- Lines 88-102: the final pass over the element declarations nested in
the original `getCommencementsData` occurrences. -/
def finalPass (pc pfx : String) (gcs : List TPath) (t : XElem) : XElem :=
  gcs.foldl (fun t g => (elemPathsUnder pfx t g).foldl (finalStep pc) t) t

/-- Every type attribute value occurring in the tree. -/
def typeVals (t : XElem) : List String :=
  (allPaths t).filterMap (fun p => typeAt t p)

/-- A finite universe containing every name the worklist can ever hold:
the type attribute values of the original tree together with the value
written by the rewriter. -/
def uList (pc : String) (t : XElem) : List String :=
  typeVals t ++ [pc ++ "string"]

/-- Fuel that provably suffices for `bfsLoop` (each pop either consumes a
queue entry or expands an unprocessed universe member, which enqueues at
most one name per tree node). -/
def fuelFor (pc : String) (t : XElem) (q0 : List String) : Nat :=
  q0.length + (uList pc t).length * ((allPaths t).length + 1) + 1

/-- The tree transformation of `process_xsd_file` (`xsd_parse.py`
lines 7-102, file I/O omitted): resolve the XSD prefix (the document is
left untouched when there is none), locate the `getCommencementsData`
occurrences, collect their element type references, run the worklist loop
and then the final direct-element pass. -/
def processXsd (doc : XDoc) : XDoc :=
  match findXsPfx doc.nsmap with
  | none => doc
  | some pfx =>
    let pc := pfx ++ ":"
    let gcs := gcFind pfx doc.root
    if gcs.isEmpty then doc
    else
      let q0 := collectRefs pc pfx doc.root gcs
      match bfsLoop pc pfx (fuelFor pc doc.root q0) q0 [] doc.root with
      | none => doc
      | some r => ⟨doc.nsmap, finalPass pc pfx gcs r.1⟩

/-- Evolution of the tree under the rewriter: a chain of in-place
narrowings, each replacing a current type attribute value that is a
narrow-target primitive by the prefixed string primitive. -/
inductive Evolves (pc : String) : XElem → XElem → Prop where
  | refl (t : XElem) : Evolves pc t t
  | step (t0 t : XElem) (q : TPath) (v : String) :
      Evolves pc t0 t → typeAt t q = some v → v ∈ narrowList pc →
      Evolves pc t0 (rewriteAt t q (pc ++ "string"))

/-- The element type references collected from the complexType definition
at `d` (a type attribute that is truthy and does not start with the XSD
prefix), as read from the original tree. -/
def refsFrom (pfx : String) (t : XElem) (d : TPath) : List String :=
  (elemPathsUnder pfx t d).filterMap (fun q =>
    match typeAt t q with
    | none => none
    | some v =>
      if v ≠ "" ∧ pyStartsWith v (pfx ++ ":") = false then some v else none)

/-- The type names reachable from the `getCommencementsData` occurrences:
the initially collected references, closed under following references out
of the first complexType definition of an already reachable name. -/
inductive ReachN (pfx : String) (t0 : XElem) : String → Prop where
  | base (s : String) :
      s ∈ collectRefs (pfx ++ ":") pfx t0 (gcFind pfx t0) → ReachN pfx t0 s
  | step (s : String) (d : TPath) (v : String) :
      ReachN pfx t0 s → findFirstCT pfx t0 s = some d →
      v ∈ refsFrom pfx t0 d → ReachN pfx t0 v

/-- The element declarations claim C1 speaks about: those nested in a
`getCommencementsData` occurrence, or nested in the first definition of a
complexType transitively referenced from one. -/
def InScopeC1 (doc : XDoc) (pfx : String) (q : TPath) : Prop :=
  (∃ g ∈ gcFind pfx doc.root, q ∈ elemPathsUnder pfx doc.root g) ∨
  (∃ s d, ReachN pfx doc.root s ∧ findFirstCT pfx doc.root s = some d ∧
    q ∈ elemPathsUnder pfx doc.root d)

/-- Loop invariant: every already processed type name has had the element
declarations nested in its first definition narrowed. -/
def DoneInv (pfx : String) (t0 : XElem) (processed : List String)
    (t : XElem) : Prop :=
  ∀ s ∈ processed, ∀ d, findFirstCT pfx t0 s = some d →
    ∀ q ∈ elemPathsUnder pfx t0 d,
      typeAt t q = rwVal (pfx ++ ":") (typeAt t0 q)

/-- Loop invariant: every reference out of an already processed type name
is itself processed or still queued. -/
def ClosedInv (pfx : String) (t0 : XElem) (processed queue : List String) :
    Prop :=
  ∀ s ∈ processed, ∀ d, findFirstCT pfx t0 s = some d →
    ∀ v ∈ refsFrom pfx t0 d, v ∈ processed ∨ v ∈ queue

/-- State of `XSDMerger`: the two dedup sets and the children appended to
the merged root so far (`xsd_merge.py` lines 14-16). -/
structure MergeState : Type where
  mergedTypes : List String
  mergedElements : List String
  outChildren : List XElem

/-- `child.tag.endswith('}element')`. -/
def isElemTagB (c : XElem) : Bool := pyEndsWith c.tag "\x7delement"

/-- `child.tag.endswith('}complexType') or child.tag.endswith('}simpleType')`. -/
def isTypeTagB (c : XElem) : Bool :=
  pyEndsWith c.tag "\x7dcomplexType" || pyEndsWith c.tag "\x7dsimpleType"

/-- `child.tag.endswith('}import') or child.tag.endswith('}include')`. -/
def isImpTagB (c : XElem) : Bool :=
  pyEndsWith c.tag "\x7dimport" || pyEndsWith c.tag "\x7dinclude"

/-- `XSDMerger.get_type_name`: `elem.get('name', '')`. -/
def getTypeName (e : XElem) : String := (e.get "name").getD ""

/-- One top-level child of `XSDMerger._process_schema`
(`xsd_merge.py` lines 58-72); the appended child is a deep copy, which is
the child itself in a pure model. -/
def processChild (st : MergeState) (c : XElem) : MergeState :=
  if isElemTagB c then
    let n := getTypeName c
    if n ≠ "" ∧ n ∉ st.mergedElements then
      ⟨st.mergedTypes, n :: st.mergedElements, st.outChildren ++ [c]⟩
    else st
  else if isTypeTagB c then
    let n := getTypeName c
    if n ≠ "" ∧ n ∉ st.mergedTypes then
      ⟨n :: st.mergedTypes, st.mergedElements, st.outChildren ++ [c]⟩
    else st
  else if isImpTagB c then
    ⟨st.mergedTypes, st.mergedElements, st.outChildren ++ [c]⟩
  else st

/-- `XSDMerger._process_schema`: fold over the top-level children. -/
def processSchema (st : MergeState) (schema : XElem) : MergeState :=
  schema.children.foldl processChild st

/-- The tag `etree.Element('{http://www.w3.org/2001/XMLSchema}schema')`. -/
def schemaTag : String := clarkTag "schema"

/-- `initialize_merged_schema` attribute copy: `merged_schema.set(key, value)`
for each root attribute in order. -/
def copyAttrs (a : List (String × String)) : List (String × String) :=
  a.foldl (fun acc kv => setKey acc kv.1 kv.2) []

/-- The loop over the remaining input files (`merge_schemas` lines 51-53);
a `none` input models a file `load_xsd` fails to parse, on which the
process exits with status 1 (modelled as `Except.error ()`). -/
def mergeLoad : List (Option XElem) → MergeState → Except Unit MergeState
  | [], st => .ok st
  | none :: _, _ => .error ()
  | some r :: fs, st => mergeLoad fs (processSchema st r)

/-- `XSDMerger.merge_schemas` (lines 41-55): an empty file list or any
parse failure exits with status 1 before any output is written; otherwise
the merged root carries the first root's attributes and the accumulated
children. -/
def mergeSchemas : List (Option XElem) → Except Unit XElem
  | [] => .error ()
  | none :: _ => .error ()
  | some r :: rest =>
    match mergeLoad rest (processSchema ⟨[], [], []⟩ r) with
    | .error e => .error e
    | .ok st => .ok (.node schemaTag (copyAttrs r.attrs) st.outChildren)

/-- Top-level children of a list of schema documents, in file-list then
document order. -/
def allKids (docs : List XElem) : List XElem :=
  (docs.map XElem.children).flatten

/-- An element-kind child named `n`. -/
def elemNamed (n : String) (c : XElem) : Bool :=
  isElemTagB c && (getTypeName c == n)

/-- A type-kind child named `n`. -/
def typeNamed (n : String) (c : XElem) : Bool :=
  isTypeTagB c && (getTypeName c == n)

/-- Shorthand for building an element in the XSD namespace. -/
def xsdE (lname : String) (attrs : List (String × String))
    (cs : List XElem) : XElem :=
  .node (clarkTag lname) attrs cs

/-- The worked example of the specification: `getCommencementsData` with a
date element and a reference to `DetailType`, which has an integer
element. -/
def sampleDoc : XDoc :=
  ⟨[(some "xs", xsdURI)],
   xsdE "schema" [("targetNamespace", "urn:ex")]
     [xsdE "complexType" [("name", "getCommencementsData")]
        [xsdE "sequence" []
           [xsdE "element" [("name", "startDate"), ("type", "xs:date")] [],
            xsdE "element" [("name", "detail"), ("type", "DetailType")] []]],
      xsdE "complexType" [("name", "DetailType")]
        [xsdE "sequence" []
           [xsdE "element" [("name", "count"), ("type", "xs:integer")] []]]]⟩

/-- A document whose type reference graph has a cycle: `AType` references
`BType` which references `AType`. -/
def cycDoc : XDoc :=
  ⟨[(some "xs", xsdURI)],
   xsdE "schema" []
     [xsdE "complexType" [("name", "getCommencementsData")]
        [xsdE "sequence" []
           [xsdE "element" [("name", "a"), ("type", "AType")] []]],
      xsdE "complexType" [("name", "AType")]
        [xsdE "sequence" []
           [xsdE "element" [("name", "b"), ("type", "BType")] [],
            xsdE "element" [("name", "when"), ("type", "xs:dateTime")] []]],
      xsdE "complexType" [("name", "BType")]
        [xsdE "sequence" []
           [xsdE "element" [("name", "back"), ("type", "AType")] []]]]⟩

/-- A document in which the XSD namespace is the default namespace: the
resolved prefix is empty and all element tags are namespace-qualified. -/
def dnsDoc : XDoc :=
  ⟨[(none, xsdURI)],
   xsdE "schema" []
     [xsdE "complexType" [("name", "getCommencementsData")]
        [xsdE "sequence" []
           [xsdE "element" [("name", "a"), ("type", "integer")] []]]]⟩

/-- A schema document for the merger examples. -/
def mergeDocA : XElem :=
  xsdE "schema" [("targetNamespace", "urn:a"), ("version", "1")]
    [xsdE "element" [("name", "root"), ("type", "Address")] [],
     xsdE "complexType" [("name", "Address")]
       [xsdE "sequence" [] [xsdE "element" [("name", "street")] []]],
     xsdE "import" [("namespace", "urn:other")] [],
     xsdE "annotation" [] []]

/-- A second schema document for the merger examples, with a conflicting
`Address` declaration and different root attributes. -/
def mergeDocB : XElem :=
  xsdE "schema" [("targetNamespace", "urn:b")]
    [xsdE "complexType" [("name", "Address")]
       [xsdE "sequence" [] [xsdE "element" [("name", "city")] []]],
     xsdE "simpleType" [("name", "Zip")] [],
     xsdE "import" [("namespace", "urn:other")] []]

/-! ### Basic string and attribute-list lemmas -/

theorem isPrefixOf_append (l m : List Char) : l.isPrefixOf (l ++ m) = true := by
  rw [List.isPrefixOf_iff_prefix]
  exact List.prefix_append l m

theorem pyStartsWith_append (p x : String) :
    pyStartsWith (p ++ x) p = true := by
  unfold pyStartsWith
  rw [String.data_append]
  exact isPrefixOf_append _ _

theorem strApp_left_inj (p a b : String) (h : p ++ a = p ++ b) : a = b := by
  have hd : (p ++ a).data = (p ++ b).data := by rw [h]
  rw [String.data_append, String.data_append] at hd
  exact String.ext (List.append_cancel_left hd)

theorem narrow_startsWith (pc v : String) (h : v ∈ narrowList pc) :
    pyStartsWith v pc = true := by
  simp only [narrowList, List.mem_cons, List.not_mem_nil, or_false] at h
  rcases h with h | h | h | h <;> subst h <;> exact pyStartsWith_append _ _

theorem strV_not_narrow (pc : String) : pc ++ "string" ∉ narrowList pc := by
  intro h
  simp only [narrowList, List.mem_cons, List.not_mem_nil, or_false] at h
  rcases h with h | h | h | h <;> exact absurd (strApp_left_inj _ _ _ h) (by decide)

theorem rwVal_idem (pc : String) (v : Option String) :
    rwVal pc (rwVal pc v) = rwVal pc v := by
  cases v with
  | none => rfl
  | some v =>
    by_cases h : v ∈ narrowList pc <;>
      simp [rwVal, h, strV_not_narrow pc]

theorem rwVal_eq_not_narrow (pc v : String) (h : v ∉ narrowList pc) :
    rwVal pc (some v) = some v := by
  simp [rwVal, h]

theorem rwVal_eq_narrow (pc v : String) (h : v ∈ narrowList pc) :
    rwVal pc (some v) = some (pc ++ "string") := by
  simp [rwVal, h]

theorem getA_cons_pos (kv : String × String) (rest : List (String × String))
    (k : String) (h : kv.1 = k) : getA (kv :: rest) k = some kv.2 := by
  simp [getA, List.find?_cons_of_pos, h]

theorem getA_cons_neg (kv : String × String) (rest : List (String × String))
    (k : String) (h : kv.1 ≠ k) : getA (kv :: rest) k = getA rest k := by
  simp only [getA]
  rw [List.find?_cons_of_neg]
  simp [h]

theorem getA_setKey_same (a : List (String × String)) (k v : String) :
    getA (setKey a k v) k = some v := by
  induction a with
  | nil => simp [setKey, getA_cons_pos]
  | cons kv rest ih =>
    by_cases h : kv.1 = k
    · simp only [setKey, beq_iff_eq, h, if_true]
      exact getA_cons_pos _ _ _ rfl
    · simp only [setKey, beq_iff_eq, h, if_false]
      rw [getA_cons_neg _ _ _ h]
      exact ih

theorem getA_setKey_other (a : List (String × String)) (k v k' : String)
    (hk : k' ≠ k) : getA (setKey a k v) k' = getA a k' := by
  induction a with
  | nil =>
    show getA [(k, v)] k' = getA [] k'
    rw [getA_cons_neg _ _ _ (Ne.symm hk)]
  | cons kv rest ih =>
    by_cases h : kv.1 = k
    · simp only [setKey, beq_iff_eq, h, if_true]
      rw [getA_cons_neg _ _ _ (Ne.symm hk), getA_cons_neg _ _ _ (h ▸ Ne.symm hk)]
    · simp only [setKey, beq_iff_eq, h, if_false]
      by_cases h2 : kv.1 = k'
      · rw [getA_cons_pos _ _ _ h2, getA_cons_pos _ _ _ h2]
      · rw [getA_cons_neg _ _ _ h2, getA_cons_neg _ _ _ h2]
        exact ih

/-! ### Path and mutation lemmas -/

theorem getElem?_modifyIdx (g : α → α) (l : List α) (i j : Nat) :
    (modifyIdx g l i)[j]? = if i = j then (l[j]?).map g else l[j]? := by
  induction l generalizing i j with
  | nil => simp [modifyIdx]
  | cons a as ih =>
    cases i with
    | zero =>
      cases j with
      | zero => simp [modifyIdx]
      | succ j => simp [modifyIdx]
    | succ i =>
      cases j with
      | zero => simp [modifyIdx]
      | succ j =>
        simp only [modifyIdx, List.getElem?_cons_succ, ih, Nat.succ_inj']

@[simp] theorem tag_node (tg : String) (a : List (String × String))
    (cs : List XElem) : (XElem.node tg a cs).tag = tg := rfl

@[simp] theorem attrs_node (tg : String) (a : List (String × String))
    (cs : List XElem) : (XElem.node tg a cs).attrs = a := rfl

@[simp] theorem children_node (tg : String) (a : List (String × String))
    (cs : List XElem) : (XElem.node tg a cs).children = cs := rfl

@[simp] theorem set_tag (e : XElem) (k v : String) :
    (e.set k v).tag = e.tag := by
  cases e; rfl

@[simp] theorem set_attrs (e : XElem) (k v : String) :
    (e.set k v).attrs = setKey e.attrs k v := by
  cases e; rfl

@[simp] theorem set_children (e : XElem) (k v : String) :
    (e.set k v).children = e.children := by
  cases e; rfl

theorem allPathsList_modifyIdx (g : XElem → XElem)
    (hg : ∀ c, allPaths (g c) = allPaths c) :
    ∀ (cs : List XElem) (i j : Nat),
      allPathsList j (modifyIdx g cs i) = allPathsList j cs := by
  intro cs
  induction cs with
  | nil => intro i j; rfl
  | cons c cs ih =>
    intro i j
    cases i with
    | zero =>
      show (allPaths (g c)).map _ ++ allPathsList _ cs = _
      rw [hg]
      rfl
    | succ i =>
      show (allPaths c).map _ ++ allPathsList _ (modifyIdx g cs i) = _
      rw [ih]
      rfl

theorem allPaths_setAt (k v : String) (q : TPath) (t : XElem) :
    allPaths (setAt k v q t) = allPaths t := by
  induction q generalizing t with
  | nil =>
    cases t with
    | node tg a cs => rfl
  | cons i p ih =>
    cases t with
    | node tg a cs =>
      show allPaths (.node tg a (modifyIdx (setAt k v p) cs i)) = _
      rw [allPaths, allPaths]
      rw [allPathsList_modifyIdx _ (fun c => ih c) cs i 0]

theorem getAt_node_cons (tg : String) (a : List (String × String))
    (cs : List XElem) (i : Nat) (p : TPath) :
    getAt (.node tg a cs) (i :: p) =
      match cs[i]? with
      | some c => getAt c p
      | none => none := rfl

theorem tagAt_cons (t : XElem) (j : Nat) (pp : TPath) :
    tagAt t (j :: pp) =
      match t.children[j]? with
      | some c => tagAt c pp
      | none => none := by
  cases t with
  | node tg a cs =>
    simp only [tagAt, getAt_node_cons, children_node]
    cases cs[j]? <;> rfl

theorem attrsAt_cons (t : XElem) (j : Nat) (pp : TPath) :
    attrsAt t (j :: pp) =
      match t.children[j]? with
      | some c => attrsAt c pp
      | none => none := by
  cases t with
  | node tg a cs =>
    simp only [attrsAt, getAt_node_cons, children_node]
    cases cs[j]? <;> rfl

theorem setAt_nil (k v : String) (t : XElem) :
    setAt k v [] t = t.set k v := rfl

theorem setAt_cons (k v : String) (i : Nat) (qp : TPath) (tg : String)
    (a : List (String × String)) (cs : List XElem) :
    setAt k v (i :: qp) (.node tg a cs) =
      .node tg a (modifyIdx (setAt k v qp) cs i) := rfl

theorem tagAt_setAt (k v : String) (q : TPath) (t : XElem) (p : TPath) :
    tagAt (setAt k v q t) p = tagAt t p := by
  induction q generalizing t p with
  | nil =>
    rw [setAt_nil]
    cases p with
    | nil =>
      cases t with
      | node tg a cs => rfl
    | cons j pp =>
      rw [tagAt_cons, tagAt_cons, set_children]
  | cons i qp ih =>
    cases t with
    | node tg a cs =>
      rw [setAt_cons]
      cases p with
      | nil => rfl
      | cons j pp =>
        rw [tagAt_cons, tagAt_cons]
        simp only [children_node, getElem?_modifyIdx]
        by_cases h : i = j
        · subst h
          simp only [if_pos rfl]
          cases hc : cs[i]? with
          | none => rfl
          | some c => simpa using ih c pp
        · simp only [if_neg h]

theorem attrsAt_setAt (k v : String) (q : TPath) (t : XElem) (p : TPath) :
    attrsAt (setAt k v q t) p =
      if q = p then (attrsAt t p).map (fun a => setKey a k v)
      else attrsAt t p := by
  induction q generalizing t p with
  | nil =>
    rw [setAt_nil]
    cases p with
    | nil =>
      cases t with
      | node tg a cs =>
        simp [attrsAt, getAt, XElem.set]
    | cons j pp =>
      rw [attrsAt_cons, attrsAt_cons, set_children,
        if_neg (by simp : ¬([] : TPath) = j :: pp)]
  | cons i qp ih =>
    cases t with
    | node tg a cs =>
      rw [setAt_cons]
      cases p with
      | nil =>
        rw [if_neg (by simp : ¬(i :: qp : TPath) = [])]
        rfl
      | cons j pp =>
        rw [attrsAt_cons, attrsAt_cons]
        simp only [children_node, getElem?_modifyIdx]
        by_cases h : i = j
        · subst h
          simp only [if_pos rfl]
          cases hc : cs[i]? with
          | none => simp
          | some c =>
            have hih := ih c pp
            by_cases h2 : qp = pp
            · subst h2
              rw [if_pos rfl] at hih
              rw [if_pos rfl]
              simpa using hih
            · rw [if_neg h2] at hih
              rw [if_neg (by simp [h2] : ¬(i :: qp : TPath) = i :: pp)]
              simpa using hih
        · rw [if_neg (by simp [h] : ¬(i :: qp : TPath) = j :: pp)]
          simp only [if_neg h]

/-! ### Effect of a single in-place rewrite on queries -/

theorem attrAt_bind (t : XElem) (p : TPath) (k : String) :
    attrAt t p k = (attrsAt t p).bind (fun a => getA a k) := by
  cases h : getAt t p <;> simp [attrAt, attrsAt, XElem.get, h]

theorem allPaths_rewriteAt (t : XElem) (q : TPath) (v : String) :
    allPaths (rewriteAt t q v) = allPaths t :=
  allPaths_setAt _ _ _ _

theorem tagAt_rewriteAt (t : XElem) (q : TPath) (v : String) (p : TPath) :
    tagAt (rewriteAt t q v) p = tagAt t p :=
  tagAt_setAt _ _ _ _ _

theorem attrAt_rewriteAt_other (t : XElem) (q : TPath) (v k : String)
    (hk : k ≠ "type") (p : TPath) :
    attrAt (rewriteAt t q v) p k = attrAt t p k := by
  rw [attrAt_bind, attrAt_bind, rewriteAt, attrsAt_setAt]
  by_cases h : q = p
  · rw [if_pos h]
    cases attrsAt t p with
    | none => rfl
    | some a => simp [getA_setKey_other _ _ _ _ hk]
  · rw [if_neg h]

theorem nameAt_rewriteAt (t : XElem) (q : TPath) (v : String) (p : TPath) :
    nameAt (rewriteAt t q v) p = nameAt t p :=
  attrAt_rewriteAt_other t q v "name" (by decide) p

theorem typeAt_rewriteAt (t : XElem) (q : TPath) (v : String) (p : TPath) :
    typeAt (rewriteAt t q v) p =
      if q = p then (attrsAt t p).map (fun _ => v) else typeAt t p := by
  rw [typeAt, attrAt_bind, rewriteAt, attrsAt_setAt]
  by_cases h : q = p
  · rw [if_pos h, if_pos h]
    cases attrsAt t p with
    | none => rfl
    | some a => simp [getA_setKey_same]
  · rw [if_neg h, if_neg h, ← attrAt_bind, typeAt]

theorem typeAt_isSome_of_eq_some (t : XElem) (p : TPath) (v : String)
    (h : typeAt t p = some v) : ∃ a, attrsAt t p = some a := by
  rw [typeAt, attrAt_bind] at h
  cases ha : attrsAt t p with
  | none => rw [ha] at h; exact absurd h (by simp)
  | some a => exact ⟨a, rfl⟩

theorem descPathsFrom_rewriteAt (t : XElem) (q : TPath) (v : String)
    (d : TPath) : descPathsFrom (rewriteAt t q v) d = descPathsFrom t d := by
  rw [descPathsFrom, descPathsFrom, allPaths_rewriteAt]

theorem elemPathsUnder_rewriteAt (pfx : String) (t : XElem) (q : TPath)
    (v : String) (d : TPath) :
    elemPathsUnder pfx (rewriteAt t q v) d = elemPathsUnder pfx t d := by
  rw [elemPathsUnder, elemPathsUnder, descPathsFrom_rewriteAt]
  exact List.filter_congr (fun p _ => by rw [tagAt_rewriteAt])

theorem ctFind_rewriteAt (pfx : String) (t : XElem) (q : TPath) (v n : String) :
    ctFind pfx (rewriteAt t q v) n = ctFind pfx t n := by
  rw [ctFind, ctFind, descPathsFrom_rewriteAt]
  exact List.filter_congr
    (fun p _ => by rw [tagAt_rewriteAt, nameAt_rewriteAt])

theorem findFirstCT_rewriteAt (pfx : String) (t : XElem) (q : TPath)
    (v n : String) :
    findFirstCT pfx (rewriteAt t q v) n = findFirstCT pfx t n := by
  rw [findFirstCT, findFirstCT, ctFind_rewriteAt]

theorem gcFind_rewriteAt (pfx : String) (t : XElem) (q : TPath) (v : String) :
    gcFind pfx (rewriteAt t q v) = gcFind pfx t := by
  rw [gcFind, gcFind, ctFind_rewriteAt]

/-! ### Consequences of tree evolution under the rewriter -/

theorem Evolves.trans {pc : String} {t0 t t' : XElem}
    (h1 : Evolves pc t0 t) (h2 : Evolves pc t t') : Evolves pc t0 t' := by
  induction h2 with
  | refl => exact h1
  | step t1 q v hev htq hn ih => exact .step _ _ q v ih htq hn

theorem evolves_allPaths {pc : String} {t0 t : XElem}
    (h : Evolves pc t0 t) : allPaths t = allPaths t0 := by
  induction h with
  | refl => rfl
  | step t1 q v hev htq hn ih => rw [allPaths_rewriteAt, ih]

theorem evolves_tagAt {pc : String} {t0 t : XElem} (h : Evolves pc t0 t)
    (p : TPath) : tagAt t p = tagAt t0 p := by
  induction h with
  | refl => rfl
  | step t1 q v hev htq hn ih => rw [tagAt_rewriteAt, ih]

theorem evolves_nameAt {pc : String} {t0 t : XElem} (h : Evolves pc t0 t)
    (p : TPath) : nameAt t p = nameAt t0 p := by
  induction h with
  | refl => rfl
  | step t1 q v hev htq hn ih => rw [nameAt_rewriteAt, ih]

theorem evolves_attrAt_other {pc : String} {t0 t : XElem}
    (h : Evolves pc t0 t) (p : TPath) (k : String) (hk : k ≠ "type") :
    attrAt t p k = attrAt t0 p k := by
  induction h with
  | refl => rfl
  | step t1 q v hev htq hn ih => rw [attrAt_rewriteAt_other _ _ _ _ hk, ih]

theorem evolves_typeAt {pc : String} {t0 t : XElem} (h : Evolves pc t0 t)
    (p : TPath) :
    typeAt t p = typeAt t0 p ∨
      (∃ v, typeAt t0 p = some v ∧ v ∈ narrowList pc ∧
        typeAt t p = some (pc ++ "string")) := by
  induction h with
  | refl => exact Or.inl rfl
  | step t1 q v hev htq hn ih =>
    rw [typeAt_rewriteAt]
    by_cases hqp : q = p
    · subst hqp
      obtain ⟨a, ha⟩ := typeAt_isSome_of_eq_some _ _ _ htq
      rcases ih with heq | ⟨w, hw0, hwn, hwt⟩
      · exact Or.inr ⟨v, heq ▸ htq, hn, by rw [if_pos rfl, ha]; rfl⟩
      · rw [hwt] at htq
        have : v = pc ++ "string" := by injection htq with h; exact h.symm
        exact absurd (this ▸ hn) (strV_not_narrow pc)
    · rw [if_neg hqp]
      exact ih

theorem evolves_typeAt_isSome {pc : String} {t0 t : XElem}
    (h : Evolves pc t0 t) (p : TPath) :
    (typeAt t p).isSome = (typeAt t0 p).isSome := by
  rcases evolves_typeAt h p with heq | ⟨v, hv0, _, hvt⟩
  · rw [heq]
  · rw [hvt, hv0]; rfl

theorem evolves_elemPathsUnder {pc : String} {t0 t : XElem}
    (h : Evolves pc t0 t) (pfx : String) (d : TPath) :
    elemPathsUnder pfx t d = elemPathsUnder pfx t0 d := by
  induction h with
  | refl => rfl
  | step t1 q v hev htq hn ih => rw [elemPathsUnder_rewriteAt, ih]

theorem evolves_findFirstCT {pc : String} {t0 t : XElem}
    (h : Evolves pc t0 t) (pfx n : String) :
    findFirstCT pfx t n = findFirstCT pfx t0 n := by
  induction h with
  | refl => rfl
  | step t1 q v hev htq hn ih => rw [findFirstCT_rewriteAt, ih]

theorem evolves_gcFind {pc : String} {t0 t : XElem}
    (h : Evolves pc t0 t) (pfx : String) :
    gcFind pfx t = gcFind pfx t0 := by
  induction h with
  | refl => rfl
  | step t1 q v hev htq hn ih => rw [gcFind_rewriteAt, ih]

theorem evolves_rwVal {pc : String} {t0 t : XElem} (h : Evolves pc t0 t)
    (p : TPath) : rwVal pc (typeAt t p) = rwVal pc (typeAt t0 p) := by
  rcases evolves_typeAt h p with heq | ⟨v, hv0, hvn, hvt⟩
  · rw [heq]
  · rw [hvt, hv0, rwVal_eq_narrow _ _ hvn, rwVal_eq_not_narrow _ _ (strV_not_narrow pc)]

/-! ### Characterization of the per-element visit step and its fold -/

theorem visitStep_evolves (pc : String) (processed : List String)
    (t : XElem) (its : List String) (q : TPath) :
    Evolves pc t (visitStep pc processed (t, its) q).1 := by
  cases h : typeAt t q with
  | none => simp only [visitStep, h]; exact .refl t
  | some v =>
    simp only [visitStep, h]
    by_cases hn : v ∈ narrowList pc
    · simp only [if_pos hn]
      exact .step t t q v (.refl t) h hn
    · simp only [if_neg hn]
      exact .refl t

theorem visitStep_typeAt_self (pc : String) (processed : List String)
    (t : XElem) (its : List String) (q : TPath) :
    typeAt (visitStep pc processed (t, its) q).1 q = rwVal pc (typeAt t q) := by
  cases h : typeAt t q with
  | none => simp only [visitStep, h, rwVal]
  | some v =>
    simp only [visitStep, h]
    by_cases hn : v ∈ narrowList pc
    · simp only [if_pos hn]
      obtain ⟨a, ha⟩ := typeAt_isSome_of_eq_some _ _ _ h
      rw [typeAt_rewriteAt, if_pos rfl, ha, rwVal_eq_narrow _ _ hn]
      rfl
    · simp only [if_neg hn, h, rwVal_eq_not_narrow _ _ hn]

theorem visitStep_typeAt_other (pc : String) (processed : List String)
    (t : XElem) (its : List String) (q p : TPath) (hpq : q ≠ p) :
    typeAt (visitStep pc processed (t, its) q).1 p = typeAt t p := by
  cases h : typeAt t q with
  | none => simp only [visitStep, h]
  | some v =>
    simp only [visitStep, h]
    by_cases hn : v ∈ narrowList pc
    · simp only [if_pos hn]
      rw [typeAt_rewriteAt, if_neg hpq]
    · simp only [if_neg hn]

theorem visitStep_snd (pc : String) (processed : List String)
    (t : XElem) (its : List String) (q : TPath) :
    (visitStep pc processed (t, its) q).2 = its ∨
      ∃ v, typeAt t q = some v ∧
        (visitStep pc processed (t, its) q).2 = its ++ [v] := by
  cases h : typeAt t q with
  | none => exact Or.inl (by simp only [visitStep, h])
  | some v =>
    by_cases hc : v ≠ "" ∧ pyStartsWith v pc = false ∧ v ∉ processed
    · exact Or.inr ⟨v, rfl, by simp only [visitStep, h, if_pos hc]⟩
    · exact Or.inl (by simp only [visitStep, h, if_neg hc])

theorem visitStep_snd_mono (pc : String) (processed : List String)
    (t : XElem) (its : List String) (q : TPath) (v : String) (hv : v ∈ its) :
    v ∈ (visitStep pc processed (t, its) q).2 := by
  rcases visitStep_snd pc processed t its q with h | ⟨w, _, h⟩ <;> rw [h]
  · exact hv
  · exact List.mem_append_left _ hv

theorem visitStep_snd_complete (pc : String) (processed : List String)
    (t : XElem) (its : List String) (q : TPath) (v : String)
    (h : typeAt t q = some v) (h1 : v ≠ "") (h2 : pyStartsWith v pc = false)
    (h3 : v ∉ processed) :
    (visitStep pc processed (t, its) q).2 = its ++ [v] := by
  simp only [visitStep, h]
  rw [if_pos ⟨h1, h2, h3⟩]

theorem visitStep_snd_length (pc : String) (processed : List String)
    (t : XElem) (its : List String) (q : TPath) :
    (visitStep pc processed (t, its) q).2.length ≤ its.length + 1 := by
  rcases visitStep_snd pc processed t its q with h | ⟨w, _, h⟩ <;> rw [h]
  · omega
  · simp

theorem visitFold_evolves (pc : String) (processed : List String) :
    ∀ (qs : List TPath) (t : XElem) (its : List String),
      Evolves pc t (qs.foldl (visitStep pc processed) (t, its)).1 := by
  intro qs
  induction qs with
  | nil => intro t its; exact .refl t
  | cons q qs ih =>
    intro t its
    rw [List.foldl_cons]
    rcases hstep : visitStep pc processed (t, its) q with ⟨t1, its1⟩
    have h1 : Evolves pc t t1 := by
      have := visitStep_evolves pc processed t its q
      rw [hstep] at this
      exact this
    exact h1.trans (ih t1 its1)

theorem visitFold_typeAt_not_mem (pc : String) (processed : List String) :
    ∀ (qs : List TPath) (t : XElem) (its : List String) (p : TPath),
      p ∉ qs →
      typeAt (qs.foldl (visitStep pc processed) (t, its)).1 p = typeAt t p := by
  intro qs
  induction qs with
  | nil => intro t its p _; rfl
  | cons q qs ih =>
    intro t its p hp
    rw [List.foldl_cons]
    rcases hstep : visitStep pc processed (t, its) q with ⟨t1, its1⟩
    have hq : q ≠ p := fun h => hp (h ▸ List.mem_cons_self q qs)
    have hqs : p ∉ qs := fun h => hp (List.mem_cons_of_mem _ h)
    rw [ih t1 its1 p hqs]
    have := visitStep_typeAt_other pc processed t its q p hq
    rw [hstep] at this
    exact this

theorem visitFold_typeAt_mem (pc : String) (processed : List String) :
    ∀ (qs : List TPath) (t : XElem) (its : List String) (p : TPath),
      p ∈ qs →
      typeAt (qs.foldl (visitStep pc processed) (t, its)).1 p =
        rwVal pc (typeAt t p) := by
  intro qs
  induction qs with
  | nil => intro t its p hp; exact absurd hp (List.not_mem_nil p)
  | cons q qs ih =>
    intro t its p hp
    rw [List.foldl_cons]
    rcases hstep : visitStep pc processed (t, its) q with ⟨t1, its1⟩
    by_cases hpq : p = q
    · subst hpq
      have hself : typeAt t1 p = rwVal pc (typeAt t p) := by
        have := visitStep_typeAt_self pc processed t its p
        rw [hstep] at this
        exact this
      by_cases hmem : p ∈ qs
      · rw [ih t1 its1 p hmem, hself, rwVal_idem]
      · rw [visitFold_typeAt_not_mem pc processed qs t1 its1 p hmem, hself]
    · have hmem : p ∈ qs := by
        rcases List.mem_cons.mp hp with h | h
        · exact absurd h hpq
        · exact h
      have hother : typeAt t1 p = typeAt t p := by
        have := visitStep_typeAt_other pc processed t its q p
          (fun h => hpq h.symm)
        rw [hstep] at this
        exact this
      rw [ih t1 its1 p hmem, hother]

theorem visitFold_snd_mono (pc : String) (processed : List String) :
    ∀ (qs : List TPath) (t : XElem) (its : List String) (v : String),
      v ∈ its → v ∈ (qs.foldl (visitStep pc processed) (t, its)).2 := by
  intro qs
  induction qs with
  | nil => intro t its v hv; exact hv
  | cons q qs ih =>
    intro t its v hv
    rw [List.foldl_cons]
    rcases hstep : visitStep pc processed (t, its) q with ⟨t1, its1⟩
    apply ih
    have := visitStep_snd_mono pc processed t its q v hv
    rw [hstep] at this
    exact this

theorem visitFold_snd_src (pc : String) (processed : List String) :
    ∀ (qs : List TPath) (t : XElem) (its : List String) (v : String),
      v ∈ (qs.foldl (visitStep pc processed) (t, its)).2 →
      v ∈ its ∨ (∃ q ∈ qs, typeAt t q = some v) ∨ v = pc ++ "string" := by
  intro qs
  induction qs with
  | nil => intro t its v hv; exact Or.inl hv
  | cons q qs ih =>
    intro t its v hv
    rw [List.foldl_cons] at hv
    rcases hstep : visitStep pc processed (t, its) q with ⟨t1, its1⟩
    rw [hstep] at hv
    rcases ih t1 its1 v hv with h1 | ⟨q', hq', hty⟩ | hstr
    · -- v came from the step's items
      have hsnd := visitStep_snd pc processed t its q
      rw [hstep] at hsnd
      rcases hsnd with he | ⟨w, hw, he⟩
      · have he' : its1 = its := he
        exact Or.inl (he' ▸ h1)
      · have he' : its1 = its ++ [w] := he
        rw [he'] at h1
        rcases List.mem_append.mp h1 with h | h
        · exact Or.inl h
        · have : v = w := by simpa using h
          exact Or.inr (Or.inl ⟨q, List.mem_cons_self q qs, this ▸ hw⟩)
    · -- v was read from the evolved tree
      by_cases hqq : q' = q
      · subst hqq
        have hself : typeAt t1 q' = rwVal pc (typeAt t q') := by
          have := visitStep_typeAt_self pc processed t its q'
          rw [hstep] at this
          exact this
        rw [hself] at hty
        cases hv0 : typeAt t q' with
        | none => rw [hv0] at hty; exact absurd hty (by simp [rwVal])
        | some w =>
          rw [hv0, rwVal] at hty
          by_cases hw : w ∈ narrowList pc
          · rw [if_pos hw] at hty
            exact Or.inr (Or.inr (by injection hty with h; exact h.symm))
          · rw [if_neg hw] at hty
            have : w = v := by injection hty
            exact Or.inr (Or.inl ⟨q', List.mem_cons_self q' qs, this ▸ hv0⟩)
      · have hother : typeAt t1 q' = typeAt t q' := by
          have := visitStep_typeAt_other pc processed t its q q'
            (fun h => hqq h.symm)
          rw [hstep] at this
          exact this
        exact Or.inr (Or.inl ⟨q', List.mem_cons_of_mem _ hq', hother ▸ hty⟩)
    · exact Or.inr (Or.inr hstr)

theorem visitFold_snd_length (pc : String) (processed : List String) :
    ∀ (qs : List TPath) (t : XElem) (its : List String),
      (qs.foldl (visitStep pc processed) (t, its)).2.length ≤
        its.length + qs.length := by
  intro qs
  induction qs with
  | nil => intro t its; exact Nat.le_refl _
  | cons q qs ih =>
    intro t its
    rw [List.foldl_cons]
    rcases hstep : visitStep pc processed (t, its) q with ⟨t1, its1⟩
    have hlen : its1.length ≤ its.length + 1 := by
      have := visitStep_snd_length pc processed t its q
      rw [hstep] at this
      exact this
    calc (qs.foldl (visitStep pc processed) (t1, its1)).2.length
        ≤ its1.length + qs.length := ih t1 its1
      _ ≤ its.length + 1 + qs.length := by omega
      _ = its.length + (q :: qs).length := by simp [List.length_cons]; omega

theorem visitFold_complete (pc : String) (processed : List String) :
    ∀ (qs : List TPath) (t : XElem) (its : List String) (q : TPath)
      (v : String), q ∈ qs → typeAt t q = some v → v ≠ "" →
      pyStartsWith v pc = false →
      v ∈ processed ∨ v ∈ (qs.foldl (visitStep pc processed) (t, its)).2 := by
  intro qs
  induction qs with
  | nil => intro t its q v hq; exact absurd hq (List.not_mem_nil q)
  | cons q0 qs ih =>
    intro t its q v hq hty h1 h2
    by_cases hp : v ∈ processed
    · exact Or.inl hp
    · rw [List.foldl_cons]
      rcases hstep : visitStep pc processed (t, its) q0 with ⟨t1, its1⟩
      by_cases hqq : q = q0
      · subst hqq
        have hsnd := visitStep_snd_complete pc processed t its q v hty h1 h2 hp
        rw [hstep] at hsnd
        have hsnd' : its1 = its ++ [v] := hsnd
        refine Or.inr (visitFold_snd_mono pc processed qs t1 its1 v ?_)
        rw [hsnd']
        exact List.mem_append_right _ (List.mem_singleton_self v)
      · have hmem : q ∈ qs := by
          rcases List.mem_cons.mp hq with h | h
          · exact absurd h hqq
          · exact h
        have hother : typeAt t1 q = typeAt t q := by
          have := visitStep_typeAt_other pc processed t its q0 q
            (fun h => hqq h.symm)
          rw [hstep] at this
          exact this
        exact ih t1 its1 q v hmem (hother ▸ hty) h1 h2

/-! ### Characterization of the final direct-element pass -/

theorem narrow_not_empty (pc : String) : "" ∉ narrowList pc := by
  intro h
  simp only [narrowList, List.mem_cons, List.not_mem_nil, or_false] at h
  rcases h with h | h | h | h <;>
  · have hd := congrArg String.data h
    rw [String.data_append] at hd
    rcases List.append_eq_nil.mp hd.symm with ⟨-, hx⟩
    exact absurd hx (by decide)

theorem visitStep_fst_eq_finalStep (pc : String) (processed : List String)
    (t : XElem) (its : List String) (q : TPath) :
    (visitStep pc processed (t, its) q).1 = finalStep pc t q := by
  cases h : typeAt t q with
  | none => simp only [visitStep, finalStep, h]
  | some v =>
    by_cases hn : v ∈ narrowList pc
    · have hne : v ≠ "" := fun he => narrow_not_empty pc (he ▸ hn)
      simp only [visitStep, finalStep, h, if_pos hn]
      rw [if_pos (show v ≠ "" ∧ v ∈ narrowList pc from ⟨hne, hn⟩)]
    · have hc : ¬(v ≠ "" ∧ v ∈ narrowList pc) := fun hc => hn hc.2
      simp only [visitStep, finalStep, h, if_neg hn]
      rw [if_neg hc]

theorem visitFold_fst_indep (pc : String) (processed : List String) :
    ∀ (qs : List TPath) (t : XElem) (its its' : List String),
      (qs.foldl (visitStep pc processed) (t, its)).1 =
        (qs.foldl (visitStep pc processed) (t, its')).1 := by
  intro qs
  induction qs with
  | nil => intro t its its'; rfl
  | cons q qs ih =>
    intro t its its'
    rw [List.foldl_cons, List.foldl_cons]
    rcases h1 : visitStep pc processed (t, its) q with ⟨ta, ia⟩
    rcases h2 : visitStep pc processed (t, its') q with ⟨tb, ib⟩
    have heq : ta = tb := by
      have e1 := visitStep_fst_eq_finalStep pc processed t its q
      have e2 := visitStep_fst_eq_finalStep pc processed t its' q
      rw [h1] at e1
      rw [h2] at e2
      exact e1.trans e2.symm
    rw [heq]
    exact ih tb ia ib

theorem finalFold_eq_visitFold (pc : String) :
    ∀ (qs : List TPath) (t : XElem),
      qs.foldl (finalStep pc) t = (qs.foldl (visitStep pc []) (t, [])).1 := by
  intro qs
  induction qs with
  | nil => intro t; rfl
  | cons q qs ih =>
    intro t
    rw [List.foldl_cons, List.foldl_cons]
    rcases hstep : visitStep pc [] (t, ([] : List String)) q with ⟨t1, its1⟩
    have h1 : finalStep pc t q = t1 := by
      have := visitStep_fst_eq_finalStep pc [] t [] q
      rw [hstep] at this
      exact this.symm
    rw [h1, ih t1]
    exact visitFold_fst_indep pc [] qs t1 [] its1

theorem innerFold_evolves (pc : String) (qs : List TPath) (t : XElem) :
    Evolves pc t (qs.foldl (finalStep pc) t) := by
  rw [finalFold_eq_visitFold]
  exact visitFold_evolves pc [] qs t []

theorem innerFold_typeAt_mem (pc : String) (qs : List TPath) (t : XElem)
    (q : TPath) (hq : q ∈ qs) :
    typeAt (qs.foldl (finalStep pc) t) q = rwVal pc (typeAt t q) := by
  rw [finalFold_eq_visitFold]
  exact visitFold_typeAt_mem pc [] qs t [] q hq

theorem innerFold_typeAt_not_mem (pc : String) (qs : List TPath) (t : XElem)
    (q : TPath) (hq : q ∉ qs) :
    typeAt (qs.foldl (finalStep pc) t) q = typeAt t q := by
  rw [finalFold_eq_visitFold]
  exact visitFold_typeAt_not_mem pc [] qs t [] q hq

theorem finalPass_cons (pc pfx : String) (g : TPath) (gs : List TPath)
    (t : XElem) :
    finalPass pc pfx (g :: gs) t =
      finalPass pc pfx gs ((elemPathsUnder pfx t g).foldl (finalStep pc) t) :=
  rfl

theorem finalPass_evolves (pc pfx : String) :
    ∀ (gcs : List TPath) (t : XElem),
      Evolves pc t (finalPass pc pfx gcs t) := by
  intro gcs
  induction gcs with
  | nil => intro t; exact .refl t
  | cons g gs ih =>
    intro t
    rw [finalPass_cons]
    exact (innerFold_evolves pc _ t).trans (ih _)

theorem finalPass_typeAt_disj (pc pfx : String) :
    ∀ (gcs : List TPath) (t : XElem) (q : TPath),
      typeAt (finalPass pc pfx gcs t) q = typeAt t q ∨
      typeAt (finalPass pc pfx gcs t) q = rwVal pc (typeAt t q) := by
  intro gcs
  induction gcs with
  | nil => intro t q; exact Or.inl rfl
  | cons g gs ih =>
    intro t q
    rw [finalPass_cons]
    have hd1 : typeAt ((elemPathsUnder pfx t g).foldl (finalStep pc) t) q =
          typeAt t q ∨
        typeAt ((elemPathsUnder pfx t g).foldl (finalStep pc) t) q =
          rwVal pc (typeAt t q) := by
      by_cases hq : q ∈ elemPathsUnder pfx t g
      · exact Or.inr (innerFold_typeAt_mem pc _ t q hq)
      · exact Or.inl (innerFold_typeAt_not_mem pc _ t q hq)
    rcases ih ((elemPathsUnder pfx t g).foldl (finalStep pc) t) q with h | h <;>
      rcases hd1 with h1 | h1
    · exact Or.inl (h.trans h1)
    · exact Or.inr (h.trans h1)
    · exact Or.inr (by rw [h, h1])
    · exact Or.inr (by rw [h, h1, rwVal_idem])

theorem finalPass_typeAt_in (pc pfx : String) :
    ∀ (gcs : List TPath) (t : XElem) (q g : TPath), g ∈ gcs →
      q ∈ elemPathsUnder pfx t g →
      typeAt (finalPass pc pfx gcs t) q = rwVal pc (typeAt t q) := by
  intro gcs
  induction gcs with
  | nil => intro t q g hg; exact absurd hg (List.not_mem_nil g)
  | cons g0 gs ih =>
    intro t q g hg hq
    rw [finalPass_cons]
    have hev1 : Evolves pc t ((elemPathsUnder pfx t g0).foldl (finalStep pc) t) :=
      innerFold_evolves pc _ t
    by_cases hg0 : g = g0
    · rw [hg0] at hq
      have hself : typeAt ((elemPathsUnder pfx t g0).foldl (finalStep pc) t) q =
          rwVal pc (typeAt t q) :=
        innerFold_typeAt_mem pc _ t q hq
      rcases finalPass_typeAt_disj pc pfx gs
          ((elemPathsUnder pfx t g0).foldl (finalStep pc) t) q with h | h
      · rw [h, hself]
      · rw [h, hself, rwVal_idem]
    · have hmem : g ∈ gs := by
        rcases List.mem_cons.mp hg with h | h
        · exact absurd h hg0
        · exact h
      have hq1 : q ∈ elemPathsUnder pfx
          ((elemPathsUnder pfx t g0).foldl (finalStep pc) t) g := by
        rw [evolves_elemPathsUnder hev1]
        exact hq
      rw [ih _ q g hmem hq1]
      have hd1 : typeAt ((elemPathsUnder pfx t g0).foldl (finalStep pc) t) q =
            typeAt t q ∨
          typeAt ((elemPathsUnder pfx t g0).foldl (finalStep pc) t) q =
            rwVal pc (typeAt t q) := by
        by_cases hqq : q ∈ elemPathsUnder pfx t g0
        · exact Or.inr (innerFold_typeAt_mem pc _ t q hqq)
        · exact Or.inl (innerFold_typeAt_not_mem pc _ t q hqq)
      rcases hd1 with h | h
      · rw [h]
      · rw [h, rwVal_idem]

theorem finalPass_typeAt_out (pc pfx : String) :
    ∀ (gcs : List TPath) (t : XElem) (q : TPath),
      (∀ g ∈ gcs, q ∉ elemPathsUnder pfx t g) →
      typeAt (finalPass pc pfx gcs t) q = typeAt t q := by
  intro gcs
  induction gcs with
  | nil => intro t q _; rfl
  | cons g0 gs ih =>
    intro t q hout
    rw [finalPass_cons]
    have hev1 : Evolves pc t ((elemPathsUnder pfx t g0).foldl (finalStep pc) t) :=
      innerFold_evolves pc _ t
    have h1 : typeAt ((elemPathsUnder pfx t g0).foldl (finalStep pc) t) q =
        typeAt t q :=
      innerFold_typeAt_not_mem pc _ t q (hout g0 (List.mem_cons_self g0 gs))
    have hout1 : ∀ g ∈ gs,
        q ∉ elemPathsUnder pfx
          ((elemPathsUnder pfx t g0).foldl (finalStep pc) t) g := by
      intro g hg
      rw [evolves_elemPathsUnder hev1]
      exact hout g (List.mem_cons_of_mem _ hg)
    rw [ih _ q hout1, h1]

/-! ### Membership and counting lemmas for the worklist bound -/

theorem elemPathsUnder_sub_allPaths (pfx : String) (t : XElem) (d q : TPath)
    (h : q ∈ elemPathsUnder pfx t d) : q ∈ allPaths t := by
  simp only [elemPathsUnder, descPathsFrom, List.mem_filter] at h
  exact h.1.1

theorem elemPathsUnder_length_le (pfx : String) (t : XElem) (d : TPath) :
    (elemPathsUnder pfx t d).length ≤ (allPaths t).length :=
  le_trans (List.length_filter_le _ _) (List.length_filter_le _ _)

theorem mem_typeVals (t : XElem) (q : TPath) (v : String)
    (hq : q ∈ allPaths t) (hv : typeAt t q = some v) : v ∈ typeVals t := by
  simp only [typeVals, List.mem_filterMap]
  exact ⟨q, hq, hv⟩

theorem mem_uList_of_evolves {pc : String} {t0 t : XElem}
    (hev : Evolves pc t0 t) (q : TPath) (v : String)
    (hq : q ∈ allPaths t0) (hv : typeAt t q = some v) : v ∈ uList pc t0 := by
  rcases evolves_typeAt hev q with heq | ⟨w, hw0, hwn, hwt⟩
  · exact List.mem_append_left _ (mem_typeVals t0 q v hq (heq ▸ hv))
  · rw [hwt] at hv
    have : v = pc ++ "string" := by injection hv with h; exact h.symm
    exact List.mem_append_right _ (this ▸ List.mem_singleton_self _)

theorem strV_mem_uList (pc : String) (t : XElem) :
    pc ++ "string" ∈ uList pc t :=
  List.mem_append_right _ (List.mem_singleton_self _)

theorem collectFold_src (pc : String) (t : XElem) :
    ∀ (qs : List TPath) (acc : List String) (v : String),
      v ∈ qs.foldl (collectStep pc t) acc →
      v ∈ acc ∨ ∃ q ∈ qs, typeAt t q = some v := by
  intro qs
  induction qs with
  | nil => intro acc v hv; exact Or.inl hv
  | cons q qs ih =>
    intro acc v hv
    rcases ih (collectStep pc t acc q) v hv with h | ⟨q', hq', hty⟩
    · -- analysis of one collect step
      rcases hstep : typeAt t q with _ | w
      · simp only [collectStep, hstep] at h
        exact Or.inl h
      · simp only [collectStep, hstep] at h
        by_cases hc : w ≠ "" ∧ pyStartsWith w pc = false ∧ w ∉ acc
        · rw [if_pos hc] at h
          rcases List.mem_append.mp h with h' | h'
          · exact Or.inl h'
          · have : v = w := by simpa using h'
            exact Or.inr ⟨q, List.mem_cons_self q qs, this ▸ hstep⟩
        · rw [if_neg hc] at h
          exact Or.inl h
    · exact Or.inr ⟨q', List.mem_cons_of_mem _ hq', hty⟩

theorem collectRefs_src (pc pfx : String) (t : XElem) :
    ∀ (gcs : List TPath) (acc : List String) (v : String),
      v ∈ gcs.foldl
        (fun acc g => (elemPathsUnder pfx t g).foldl (collectStep pc t) acc)
        acc →
      v ∈ acc ∨ ∃ q ∈ allPaths t, typeAt t q = some v := by
  intro gcs
  induction gcs with
  | nil => intro acc v hv; exact Or.inl hv
  | cons g gcs ih =>
    intro acc v hv
    rcases ih _ v hv with h | h
    · rcases collectFold_src pc t (elemPathsUnder pfx t g) acc v h with
        h' | ⟨q, hq, hty⟩
      · exact Or.inl h'
      · exact Or.inr ⟨q, elemPathsUnder_sub_allPaths pfx t g q hq, hty⟩
    · exact Or.inr h

theorem collectRefs_mem_uList (pc pfx : String) (t : XElem)
    (gcs : List TPath) (v : String)
    (hv : v ∈ collectRefs pc pfx t gcs) : v ∈ uList pc t := by
  rcases collectRefs_src pc pfx t gcs [] v hv with h | ⟨q, hq, hty⟩
  · exact absurd h (List.not_mem_nil v)
  · exact List.mem_append_left _ (mem_typeVals t q v hq hty)

theorem filter_length_mono (l : List α) (p q : α → Bool)
    (h : ∀ x, p x = true → q x = true) :
    (l.filter p).length ≤ (l.filter q).length := by
  induction l with
  | nil => exact Nat.le_refl _
  | cons a as ih =>
    by_cases hp : p a = true
    · rw [List.filter_cons_of_pos hp, List.filter_cons_of_pos (h a hp)]
      simpa using ih
    · rw [List.filter_cons_of_neg (by simpa using hp)]
      by_cases hq : q a = true
      · rw [List.filter_cons_of_pos hq]
        exact le_trans ih (by simp)
      · rw [List.filter_cons_of_neg (by simpa using hq)]
        exact ih

theorem filter_length_lt (l : List α) (a : α) (p q : α → Bool)
    (ha : a ∈ l) (hpq : ∀ x, p x = true → q x = true)
    (hpa : p a = false) (hqa : q a = true) :
    (l.filter p).length < (l.filter q).length := by
  induction l with
  | nil => exact absurd ha (List.not_mem_nil a)
  | cons x xs ih =>
    by_cases hax : a = x
    · subst hax
      rw [List.filter_cons_of_neg (by simp [hpa]), List.filter_cons_of_pos hqa]
      exact Nat.lt_succ_of_le (filter_length_mono xs p q hpq)
    · have hmem : a ∈ xs := by
        rcases List.mem_cons.mp ha with h | h
        · exact absurd h hax
        · exact h
      by_cases hp : p x = true
      · rw [List.filter_cons_of_pos hp, List.filter_cons_of_pos (hpq x hp)]
        simpa using ih hmem
      · rw [List.filter_cons_of_neg (by simpa using hp)]
        by_cases hq : q x = true
        · rw [List.filter_cons_of_pos hq]
          exact Nat.lt_succ_of_lt (ih hmem)
        · rw [List.filter_cons_of_neg (by simpa using hq)]
          exact ih hmem

theorem mem_refsFrom_elim (pfx : String) (t : XElem) (d : TPath) (v : String)
    (hv : v ∈ refsFrom pfx t d) :
    ∃ q ∈ elemPathsUnder pfx t d, typeAt t q = some v ∧ v ≠ "" ∧
      pyStartsWith v (pfx ++ ":") = false := by
  simp only [refsFrom, List.mem_filterMap] at hv
  obtain ⟨q, hq, hf⟩ := hv
  rcases hty : typeAt t q with _ | w
  · rw [hty] at hf; exact absurd hf (by simp)
  · rw [hty] at hf
    simp only [] at hf
    by_cases hc : w ≠ "" ∧ pyStartsWith w (pfx ++ ":") = false
    · rw [if_pos hc] at hf
      have hw : w = v := by injection hf
      subst hw
      exact ⟨q, hq, hty, hc.1, hc.2⟩
    · rw [if_neg hc] at hf
      exact absurd hf (by simp)

/-! ### Unfolding equations for the worklist loop -/

theorem bfsLoop_nil (pc pfx : String) (fuel : Nat) (processed : List String)
    (t : XElem) :
    bfsLoop pc pfx (fuel + 1) [] processed t = some (t, processed) := rfl

theorem bfsLoop_cons_mem (pc pfx : String) (fuel : Nat) (cur : String)
    (rest processed : List String) (t : XElem) (h : cur ∈ processed) :
    bfsLoop pc pfx (fuel + 1) (cur :: rest) processed t =
      bfsLoop pc pfx fuel rest processed t := by
  simp only [bfsLoop, if_pos h]

theorem bfsLoop_cons_dangling (pc pfx : String) (fuel : Nat) (cur : String)
    (rest processed : List String) (t : XElem) (h : cur ∉ processed)
    (hf : findFirstCT pfx t cur = none) :
    bfsLoop pc pfx (fuel + 1) (cur :: rest) processed t =
      bfsLoop pc pfx fuel rest (cur :: processed) t := by
  simp only [bfsLoop, if_neg h, hf]

theorem bfsLoop_cons_found (pc pfx : String) (fuel : Nat) (cur : String)
    (rest processed : List String) (t : XElem) (d : TPath)
    (h : cur ∉ processed) (hf : findFirstCT pfx t cur = some d) :
    bfsLoop pc pfx (fuel + 1) (cur :: rest) processed t =
      bfsLoop pc pfx fuel
        (rest ++ (visitDef pc pfx t d (cur :: processed)).2)
        (cur :: processed)
        (visitDef pc pfx t d (cur :: processed)).1 := by
  simp only [bfsLoop, if_neg h, hf]

/-! ### The main worklist loop invariant theorem -/

theorem bfsLoop_spec (pfx : String) (t0 : XElem) :
    ∀ (fuel : Nat) (queue processed : List String) (t : XElem),
      Evolves (pfx ++ ":") t0 t →
      (∀ s ∈ queue, s ∈ uList (pfx ++ ":") t0) →
      DoneInv pfx t0 processed t →
      ClosedInv pfx t0 processed queue →
      processed.Nodup →
      queue.length +
        ((uList (pfx ++ ":") t0).filter
          (fun u => decide (u ∉ processed))).length *
          ((allPaths t0).length + 1) < fuel →
      ∃ t1 pr,
        bfsLoop (pfx ++ ":") pfx fuel queue processed t = some (t1, pr) ∧
        Evolves (pfx ++ ":") t0 t1 ∧ DoneInv pfx t0 pr t1 ∧
        ClosedInv pfx t0 pr [] ∧ (∀ s ∈ processed, s ∈ pr) ∧
        (∀ s ∈ queue, s ∈ pr) ∧ pr.Nodup := by
  intro fuel
  induction fuel with
  | zero =>
    intro queue processed t _ _ _ _ _ hbound
    exact absurd hbound (Nat.not_lt_zero _)
  | succ fuel ih =>
    intro queue processed t hev hqU hdone hclosed hnd hbound
    cases queue with
    | nil =>
      exact ⟨t, processed, bfsLoop_nil _ _ _ _ _, hev, hdone, hclosed,
        fun s hs => hs, fun s hs => absurd hs (List.not_mem_nil s), hnd⟩
    | cons cur rest =>
      by_cases hmem : cur ∈ processed
      · -- already processed: skip
        rw [bfsLoop_cons_mem _ _ _ _ _ _ _ hmem]
        have hclosed' : ClosedInv pfx t0 processed rest := by
          intro s hs d hd v hv
          rcases hclosed s hs d hd v hv with h | h
          · exact Or.inl h
          · rcases List.mem_cons.mp h with h' | h'
            · exact Or.inl (h' ▸ hmem)
            · exact Or.inr h'
        have hbound' : rest.length +
            ((uList (pfx ++ ":") t0).filter
              (fun u => decide (u ∉ processed))).length *
              ((allPaths t0).length + 1) < fuel := by
          have hlen : (cur :: rest).length = rest.length + 1 := rfl
          rw [hlen] at hbound
          generalize ((uList (pfx ++ ":") t0).filter
            (fun u => decide (u ∉ processed))).length *
            ((allPaths t0).length + 1) = M at hbound ⊢
          omega
        obtain ⟨t1, pr, heq, hev1, hdone1, hclosed1, hsub1, hq1, hnd1⟩ :=
          ih rest processed t hev
            (fun s hs => hqU s (List.mem_cons_of_mem _ hs))
            hdone hclosed' hnd hbound'
        refine ⟨t1, pr, heq, hev1, hdone1, hclosed1, hsub1, ?_, hnd1⟩
        intro s hs
        rcases List.mem_cons.mp hs with h | h
        · exact hsub1 _ (h ▸ hmem)
        · exact hq1 s h
      · have hcurU : cur ∈ uList (pfx ++ ":") t0 :=
          hqU cur (List.mem_cons_self cur rest)
        have hKlt : ((uList (pfx ++ ":") t0).filter
              (fun u => decide (u ∉ cur :: processed))).length <
            ((uList (pfx ++ ":") t0).filter
              (fun u => decide (u ∉ processed))).length := by
          refine filter_length_lt _ cur _ _ hcurU ?_ ?_ ?_
          · intro x hx
            simp only [decide_eq_true_eq] at hx ⊢
            intro hc
            exact hx (List.mem_cons_of_mem _ hc)
          · simp
          · simpa using hmem
        have hffc : findFirstCT pfx t cur = findFirstCT pfx t0 cur :=
          evolves_findFirstCT hev pfx cur
        cases hfd : findFirstCT pfx t0 cur with
        | none =>
          rw [bfsLoop_cons_dangling _ _ _ _ _ _ _ hmem (hffc.trans hfd)]
          have hdone' : DoneInv pfx t0 (cur :: processed) t := by
            intro s hs d hd
            rcases List.mem_cons.mp hs with h | h
            · rw [h] at hd
              rw [hfd] at hd
              exact absurd hd (by simp)
            · exact hdone s h d hd
          have hclosed' : ClosedInv pfx t0 (cur :: processed) rest := by
            intro s hs d hd v hv
            rcases List.mem_cons.mp hs with h | h
            · rw [h] at hd
              rw [hfd] at hd
              exact absurd hd (by simp)
            · rcases hclosed s h d hd v hv with h' | h'
              · exact Or.inl (List.mem_cons_of_mem _ h')
              · rcases List.mem_cons.mp h' with h'' | h''
                · exact Or.inl (h'' ▸ List.mem_cons_self cur processed)
                · exact Or.inr h''
          have hbound' : rest.length +
              ((uList (pfx ++ ":") t0).filter
                (fun u => decide (u ∉ cur :: processed))).length *
                ((allPaths t0).length + 1) < fuel := by
            have hlen : (cur :: rest).length = rest.length + 1 := rfl
            rw [hlen] at hbound
            have hmul : (((uList (pfx ++ ":") t0).filter
                  (fun u => decide (u ∉ cur :: processed))).length + 1) *
                  ((allPaths t0).length + 1) ≤
                ((uList (pfx ++ ":") t0).filter
                  (fun u => decide (u ∉ processed))).length *
                  ((allPaths t0).length + 1) :=
              Nat.mul_le_mul_right _ hKlt
            rw [Nat.succ_mul] at hmul
            generalize hM1 : ((uList (pfx ++ ":") t0).filter
              (fun u => decide (u ∉ cur :: processed))).length *
              ((allPaths t0).length + 1) = M1 at hmul ⊢
            generalize hM2 : ((uList (pfx ++ ":") t0).filter
              (fun u => decide (u ∉ processed))).length *
              ((allPaths t0).length + 1) = M2 at hmul hbound
            omega
          obtain ⟨t1, pr, heq, hev1, hdone1, hclosed1, hsub1, hq1, hnd1⟩ :=
            ih rest (cur :: processed) t hev
              (fun s hs => hqU s (List.mem_cons_of_mem _ hs))
              hdone' hclosed' (List.nodup_cons.mpr ⟨hmem, hnd⟩) hbound'
          refine ⟨t1, pr, heq, hev1, hdone1, hclosed1, ?_, ?_, hnd1⟩
          · intro s hs
            exact hsub1 _ (List.mem_cons_of_mem _ hs)
          · intro s hs
            rcases List.mem_cons.mp hs with h | h
            · exact hsub1 _ (h ▸ List.mem_cons_self cur processed)
            · exact hq1 s h
        | some d =>
          rw [bfsLoop_cons_found _ _ _ _ _ _ _ _ hmem (hffc.trans hfd)]
          rcases hvd : visitDef (pfx ++ ":") pfx t d (cur :: processed) with
            ⟨tv, items⟩
          have hep0 : elemPathsUnder pfx t d = elemPathsUnder pfx t0 d :=
            evolves_elemPathsUnder hev pfx d
          have hfold : (elemPathsUnder pfx t d).foldl
              (visitStep (pfx ++ ":") (cur :: processed)) (t, []) =
              (tv, items) := hvd
          have hevv : Evolves (pfx ++ ":") t tv := by
            have := visitFold_evolves (pfx ++ ":") (cur :: processed)
              (elemPathsUnder pfx t d) t []
            rw [hfold] at this
            exact this
          have hev0v : Evolves (pfx ++ ":") t0 tv := hev.trans hevv
          -- the fold narrows in place every element nested in d
          have hvmem : ∀ q ∈ elemPathsUnder pfx t d,
              typeAt tv q = rwVal (pfx ++ ":") (typeAt t q) := by
            intro q hq
            have := visitFold_typeAt_mem (pfx ++ ":") (cur :: processed)
              (elemPathsUnder pfx t d) t [] q hq
            rw [hfold] at this
            exact this
          have hvnot : ∀ q, q ∉ elemPathsUnder pfx t d →
              typeAt tv q = typeAt t q := by
            intro q hq
            have := visitFold_typeAt_not_mem (pfx ++ ":") (cur :: processed)
              (elemPathsUnder pfx t d) t [] q hq
            rw [hfold] at this
            exact this
          have hdone' : DoneInv pfx t0 (cur :: processed) tv := by
            intro s hs d' hd' q hq
            rcases List.mem_cons.mp hs with h | h
            · -- the newly expanded type
              rw [h, hfd] at hd'
              have hdd : d' = d := by injection hd' with he; exact he.symm
              rw [hdd] at hq
              have hq' : q ∈ elemPathsUnder pfx t d := by rw [hep0]; exact hq
              rw [hvmem q hq', evolves_rwVal hev q]
            · -- a previously processed type stays narrowed
              have hold := hdone s h d' hd' q hq
              by_cases hqin : q ∈ elemPathsUnder pfx t d
              · rw [hvmem q hqin, hold, rwVal_idem]
              · rw [hvnot q hqin, hold]
          have hclosed' : ClosedInv pfx t0 (cur :: processed)
              (rest ++ items) := by
            intro s hs d' hd' v hv
            rcases List.mem_cons.mp hs with h | h
            · rw [h, hfd] at hd'
              have hdd : d' = d := by injection hd' with he; exact he.symm
              rw [hdd] at hv
              obtain ⟨q, hq, hty0, hne, hnp⟩ :=
                mem_refsFrom_elim pfx t0 d v hv
              have htyt : typeAt t q = some v := by
                rcases evolves_typeAt hev q with heq | ⟨w, hw0, hwn, hwt⟩
                · rw [heq]; exact hty0
                · rw [hty0] at hw0
                  have hwv : v = w := by injection hw0
                  subst hwv
                  exact absurd (narrow_startsWith _ _ hwn) (by rw [hnp]; decide)
              have hq' : q ∈ elemPathsUnder pfx t d := by rw [hep0]; exact hq
              have := visitFold_complete (pfx ++ ":") (cur :: processed)
                (elemPathsUnder pfx t d) t [] q v hq' htyt hne hnp
              rw [hfold] at this
              rcases this with h' | h'
              · exact Or.inl h'
              · exact Or.inr (List.mem_append_right _ h')
            · rcases hclosed s h d' hd' v hv with h' | h'
              · exact Or.inl (List.mem_cons_of_mem _ h')
              · rcases List.mem_cons.mp h' with h'' | h''
                · exact Or.inl (h'' ▸ List.mem_cons_self cur processed)
                · exact Or.inr (List.mem_append_left _ h'')
          have hqU' : ∀ s ∈ rest ++ items, s ∈ uList (pfx ++ ":") t0 := by
            intro s hs
            rcases List.mem_append.mp hs with h | h
            · exact hqU s (List.mem_cons_of_mem _ h)
            · have := visitFold_snd_src (pfx ++ ":") (cur :: processed)
                (elemPathsUnder pfx t d) t [] s (by rw [hfold]; exact h)
              rcases this with h' | ⟨q, hq, hty⟩ | h'
              · exact absurd h' (List.not_mem_nil s)
              · refine mem_uList_of_evolves hev q s ?_ hty
                have hq0 : q ∈ elemPathsUnder pfx t0 d := by
                  rw [← hep0]; exact hq
                have := elemPathsUnder_sub_allPaths pfx t0 d q hq0
                exact this
              · exact h' ▸ strV_mem_uList _ _
          have hitems : items.length ≤ (allPaths t0).length := by
            have hlen := visitFold_snd_length (pfx ++ ":") (cur :: processed)
              (elemPathsUnder pfx t d) t []
            rw [hfold] at hlen
            have h1 : (elemPathsUnder pfx t d).length ≤ (allPaths t).length :=
              elemPathsUnder_length_le pfx t d
            rw [evolves_allPaths hev] at h1
            simpa using le_trans hlen (by simpa using h1)
          have hbound' : (rest ++ items).length +
              ((uList (pfx ++ ":") t0).filter
                (fun u => decide (u ∉ cur :: processed))).length *
                ((allPaths t0).length + 1) < fuel := by
            rw [List.length_append]
            have hlen : (cur :: rest).length = rest.length + 1 := rfl
            rw [hlen] at hbound
            have hstep : (((uList (pfx ++ ":") t0).filter
                  (fun u => decide (u ∉ cur :: processed))).length + 1) *
                  ((allPaths t0).length + 1) ≤
                ((uList (pfx ++ ":") t0).filter
                  (fun u => decide (u ∉ processed))).length *
                  ((allPaths t0).length + 1) :=
              Nat.mul_le_mul_right _ hKlt
            rw [Nat.succ_mul] at hstep
            generalize hM1 : ((uList (pfx ++ ":") t0).filter
              (fun u => decide (u ∉ cur :: processed))).length *
              ((allPaths t0).length + 1) = M1 at hstep ⊢
            generalize hM2 : ((uList (pfx ++ ":") t0).filter
              (fun u => decide (u ∉ processed))).length *
              ((allPaths t0).length + 1) = M2 at hstep hbound
            omega
          obtain ⟨t1, pr, heq, hev1, hdone1, hclosed1, hsub1, hq1, hnd1⟩ :=
            ih (rest ++ items) (cur :: processed) tv hev0v hqU'
              hdone' hclosed' (List.nodup_cons.mpr ⟨hmem, hnd⟩) hbound'
          refine ⟨t1, pr, heq, hev1, hdone1, hclosed1, ?_, ?_, hnd1⟩
          · intro s hs
            exact hsub1 _ (List.mem_cons_of_mem _ hs)
          · intro s hs
            rcases List.mem_cons.mp hs with h | h
            · exact hsub1 _ (h ▸ List.mem_cons_self cur processed)
            · exact hq1 s (List.mem_append_left _ h)

/-! ### Running the rewriter -/

theorem processXsd_no_ns (doc : XDoc) (h : findXsPfx doc.nsmap = none) :
    processXsd doc = doc := by
  simp only [processXsd, h]

theorem processXsd_no_gc (doc : XDoc) (pfx : String)
    (h : findXsPfx doc.nsmap = some pfx) (hgc : gcFind pfx doc.root = []) :
    processXsd doc = doc := by
  simp only [processXsd, h, hgc, List.isEmpty_nil, if_true]

theorem processXsd_run (doc : XDoc) (pfx : String) (t1 : XElem)
    (pr : List String) (h : findXsPfx doc.nsmap = some pfx)
    (hgc : gcFind pfx doc.root ≠ [])
    (hloop : bfsLoop (pfx ++ ":") pfx
        (fuelFor (pfx ++ ":") doc.root
          (collectRefs (pfx ++ ":") pfx doc.root (gcFind pfx doc.root)))
        (collectRefs (pfx ++ ":") pfx doc.root (gcFind pfx doc.root))
        [] doc.root = some (t1, pr)) :
    processXsd doc =
      ⟨doc.nsmap, finalPass (pfx ++ ":") pfx (gcFind pfx doc.root) t1⟩ := by
  have hne : (gcFind pfx doc.root).isEmpty = false := by
    cases hg : gcFind pfx doc.root with
    | nil => exact absurd hg hgc
    | cons a l => rfl
  simp only [processXsd, h, hne, Bool.false_eq_true, if_false, hloop]

theorem bfsLoop_run (pfx : String) (t0 : XElem) (gcs : List TPath) :
    ∃ t1 pr,
      bfsLoop (pfx ++ ":") pfx
        (fuelFor (pfx ++ ":") t0 (collectRefs (pfx ++ ":") pfx t0 gcs))
        (collectRefs (pfx ++ ":") pfx t0 gcs) [] t0 = some (t1, pr) ∧
      Evolves (pfx ++ ":") t0 t1 ∧ DoneInv pfx t0 pr t1 ∧
      ClosedInv pfx t0 pr [] ∧
      (∀ s ∈ collectRefs (pfx ++ ":") pfx t0 gcs, s ∈ pr) ∧ pr.Nodup := by
  have hbound : (collectRefs (pfx ++ ":") pfx t0 gcs).length +
      ((uList (pfx ++ ":") t0).filter
        (fun u => decide (u ∉ ([] : List String)))).length *
        ((allPaths t0).length + 1) <
      fuelFor (pfx ++ ":") t0 (collectRefs (pfx ++ ":") pfx t0 gcs) := by
    have hfl : ((uList (pfx ++ ":") t0).filter
        (fun u => decide (u ∉ ([] : List String)))).length ≤
        (uList (pfx ++ ":") t0).length := List.length_filter_le _ _
    have hmul := Nat.mul_le_mul_right ((allPaths t0).length + 1) hfl
    rw [fuelFor]
    generalize ((uList (pfx ++ ":") t0).filter
      (fun u => decide (u ∉ ([] : List String)))).length *
      ((allPaths t0).length + 1) = M1 at hmul ⊢
    generalize (uList (pfx ++ ":") t0).length *
      ((allPaths t0).length + 1) = M2 at hmul ⊢
    omega
  obtain ⟨t1, pr, heq, hev, hdone, hclosed, _, hq, hnd⟩ :=
    bfsLoop_spec pfx t0 _ (collectRefs (pfx ++ ":") pfx t0 gcs) [] t0
      (.refl t0)
      (fun s hs => collectRefs_mem_uList (pfx ++ ":") pfx t0 gcs s hs)
      (fun s hs => absurd hs (List.not_mem_nil s))
      (fun s hs => absurd hs (List.not_mem_nil s))
      List.nodup_nil hbound
  exact ⟨t1, pr, heq, hev, hdone, hclosed, hq, hnd⟩

theorem reach_mem_pr (pfx : String) (t0 : XElem) (pr : List String)
    (hq0 : ∀ s ∈ collectRefs (pfx ++ ":") pfx t0 (gcFind pfx t0), s ∈ pr)
    (hclosed : ClosedInv pfx t0 pr []) :
    ∀ s, ReachN pfx t0 s → s ∈ pr := by
  intro s hs
  induction hs with
  | base s hbase => exact hq0 s hbase
  | step s d v _ hfd hv ih =>
    rcases hclosed s ih d hfd v hv with h | h
    · exact h
    · exact absurd h (List.not_mem_nil v)

/-! ### Claims about the type-narrowing rewriter -/

/-- C1: for a schema document binding the XSD namespace to a non-empty
prefix and containing a `getCommencementsData` complexType, every element
declaration nested in that complexType or in any complexType transitively
referenced from it through element type attributes has a narrow-target
prefixed primitive type rewritten to the prefixed string primitive, and
every element whose type attribute is any other value keeps it unchanged. -/
theorem claim_C1 (doc : XDoc) (pfx : String)
    (h1 : findXsPfx doc.nsmap = some pfx) (h2 : pfx ≠ "")
    (h3 : gcFind pfx doc.root ≠ []) (q : TPath) (v : String)
    (hty : typeAt doc.root q = some v) :
    (InScopeC1 doc pfx q → v ∈ narrowList (pfx ++ ":") →
      typeAt (processXsd doc).root q = some (pfx ++ ":" ++ "string")) ∧
    (v ∉ narrowList (pfx ++ ":") →
      typeAt (processXsd doc).root q = some v) := by
  obtain ⟨t1, pr, hloop, hev1, hdone1, hclosed1, hq0pr, hnd⟩ :=
    bfsLoop_run pfx doc.root (gcFind pfx doc.root)
  have hrun := processXsd_run doc pfx t1 pr h1 h3 hloop
  rw [hrun]
  constructor
  · intro hsc hnar
    rcases hsc with ⟨g, hg, hq⟩ | ⟨s, d, hreach, hfd, hq⟩
    · -- nested in a getCommencementsData occurrence: final pass narrows it
      have hq1 : q ∈ elemPathsUnder pfx t1 g := by
        rw [evolves_elemPathsUnder hev1]
        exact hq
      have hfp := finalPass_typeAt_in (pfx ++ ":") pfx
        (gcFind pfx doc.root) t1 q g hg hq1
      show typeAt (finalPass (pfx ++ ":") pfx (gcFind pfx doc.root) t1) q = _
      rw [hfp]
      rcases evolves_typeAt hev1 q with heq | ⟨w, hw0, hwn, hwt⟩
      · rw [heq, hty, rwVal_eq_narrow _ _ hnar]
      · rw [hwt, rwVal_eq_not_narrow _ _ (strV_not_narrow _)]
    · -- nested in a transitively referenced complexType: the loop narrowed it
      have hspr : s ∈ pr :=
        reach_mem_pr pfx doc.root pr hq0pr hclosed1 s hreach
      have hd1 := hdone1 s hspr d hfd q hq
      rw [hty, rwVal_eq_narrow _ _ hnar] at hd1
      show typeAt (finalPass (pfx ++ ":") pfx (gcFind pfx doc.root) t1) q = _
      rcases finalPass_typeAt_disj (pfx ++ ":") pfx
          (gcFind pfx doc.root) t1 q with h | h
      · rw [h, hd1]
      · rw [h, hd1, rwVal_eq_not_narrow _ _ (strV_not_narrow _)]
  · intro hnn
    show typeAt (finalPass (pfx ++ ":") pfx (gcFind pfx doc.root) t1) q = _
    have hevf : Evolves (pfx ++ ":") doc.root
        (finalPass (pfx ++ ":") pfx (gcFind pfx doc.root) t1) :=
      hev1.trans (finalPass_evolves _ _ _ _)
    rcases evolves_typeAt hevf q with heq | ⟨w, hw0, hwn, hwt⟩
    · rw [heq, hty]
    · rw [hty] at hw0
      have hvw : v = w := by injection hw0
      exact absurd (hvw ▸ hwn) hnn

theorem claim_C1_w :
    findXsPfx sampleDoc.nsmap = some "xs" ∧
    typeAt (processXsd sampleDoc).root [0, 0, 0] = some "xs:string" := by
  refine ⟨rfl, ?_⟩
  have h := claim_C1 sampleDoc "xs" rfl (by decide) (by decide)
    [0, 0, 0] "xs:date" rfl
  have h2 := h.1 (Or.inl ⟨[0], by decide, by decide⟩) (by decide)
  rw [h2]
  rfl

/-- C2: for every schema document, the worklist loop terminates within the
fuel supplied by `processXsd` (even on cyclic type reference graphs), and
the processed set — which records exactly the names popped, marked and
searched for — holds each type name at most once. -/
theorem claim_C2 (doc : XDoc) (pfx : String)
    (h1 : findXsPfx doc.nsmap = some pfx) :
    ∃ t1 pr,
      bfsLoop (pfx ++ ":") pfx
        (fuelFor (pfx ++ ":") doc.root
          (collectRefs (pfx ++ ":") pfx doc.root (gcFind pfx doc.root)))
        (collectRefs (pfx ++ ":") pfx doc.root (gcFind pfx doc.root))
        [] doc.root = some (t1, pr) ∧ pr.Nodup := by
  obtain ⟨t1, pr, hloop, _, _, _, _, hnd⟩ :=
    bfsLoop_run pfx doc.root (gcFind pfx doc.root)
  exact ⟨t1, pr, hloop, hnd⟩

theorem claim_C2_w :
    findXsPfx cycDoc.nsmap = some "xs" ∧
    (∃ t1 pr,
      bfsLoop ("xs" ++ ":") "xs"
        (fuelFor ("xs" ++ ":") cycDoc.root
          (collectRefs ("xs" ++ ":") "xs" cycDoc.root
            (gcFind "xs" cycDoc.root)))
        (collectRefs ("xs" ++ ":") "xs" cycDoc.root
          (gcFind "xs" cycDoc.root))
        [] cycDoc.root = some (t1, pr) ∧ pr.Nodup) :=
  ⟨rfl, claim_C2 cycDoc "xs" rfl⟩

/-- C4 evaluation: in a document whose XSD namespace is the default
namespace the resolved prefix is the empty string, but the rewriter's
unprefixed XPath queries match only no-namespace elements, so the
namespace-qualified `getCommencementsData` complexType is never found and
the document is left unchanged — the unprefixed `integer` element type is
not rewritten to `string`, contradicting the claim. -/
theorem claim_C4 :
    findXsPfx dnsDoc.nsmap = some "" ∧
    gcFind "" dnsDoc.root = [] ∧
    processXsd dnsDoc = dnsDoc ∧
    typeAt (processXsd dnsDoc).root [0, 0, 0] = some "integer" :=
  ⟨rfl, rfl, rfl, rfl⟩

/-- C5: once the worklist is exhausted, the final pass looks at exactly the
element declarations nested in the original `getCommencementsData`
occurrences; each of those whose current type attribute is a narrow-target
primitive is rewritten to the prefixed string primitive (idempotently
re-narrowing direct children regardless of the earlier pass), and every
element declaration outside those occurrences is untouched by the pass. -/
theorem claim_C5 (doc : XDoc) (pfx : String) (t1 : XElem) (pr : List String)
    (h1 : findXsPfx doc.nsmap = some pfx)
    (h3 : gcFind pfx doc.root ≠ [])
    (hloop : bfsLoop (pfx ++ ":") pfx
        (fuelFor (pfx ++ ":") doc.root
          (collectRefs (pfx ++ ":") pfx doc.root (gcFind pfx doc.root)))
        (collectRefs (pfx ++ ":") pfx doc.root (gcFind pfx doc.root))
        [] doc.root = some (t1, pr)) :
    (processXsd doc).root =
      finalPass (pfx ++ ":") pfx (gcFind pfx doc.root) t1 ∧
    (∀ q, (∃ g ∈ gcFind pfx doc.root, q ∈ elemPathsUnder pfx doc.root g) →
      typeAt (finalPass (pfx ++ ":") pfx (gcFind pfx doc.root) t1) q =
        rwVal (pfx ++ ":") (typeAt t1 q)) ∧
    (∀ q, (∀ g ∈ gcFind pfx doc.root, q ∉ elemPathsUnder pfx doc.root g) →
      typeAt (finalPass (pfx ++ ":") pfx (gcFind pfx doc.root) t1) q =
        typeAt t1 q) := by
  obtain ⟨t1', pr', hloop', hev1, _, _, _, _⟩ :=
    bfsLoop_run pfx doc.root (gcFind pfx doc.root)
  have heq : (t1', pr') = (t1, pr) := by
    have h := hloop'.symm.trans hloop
    injection h
  have ht1 : t1' = t1 := by injection heq
  rw [ht1] at hev1
  have hep : ∀ g, elemPathsUnder pfx t1 g = elemPathsUnder pfx doc.root g :=
    fun g => evolves_elemPathsUnder hev1 pfx g
  refine ⟨?_, ?_, ?_⟩
  · rw [processXsd_run doc pfx t1 pr h1 h3 hloop]
  · rintro q ⟨g, hg, hq⟩
    exact finalPass_typeAt_in _ _ _ _ q g hg ((hep g).symm ▸ hq)
  · intro q hout
    refine finalPass_typeAt_out _ _ _ _ q ?_
    intro g hg
    rw [hep g]
    exact hout g hg

theorem claim_C5_w :
    ∃ t1 pr,
      bfsLoop ("xs" ++ ":") "xs"
        (fuelFor ("xs" ++ ":") sampleDoc.root
          (collectRefs ("xs" ++ ":") "xs" sampleDoc.root
            (gcFind "xs" sampleDoc.root)))
        (collectRefs ("xs" ++ ":") "xs" sampleDoc.root
          (gcFind "xs" sampleDoc.root))
        [] sampleDoc.root = some (t1, pr) ∧
      (processXsd sampleDoc).root =
        finalPass ("xs" ++ ":") "xs" (gcFind "xs" sampleDoc.root) t1 := by
  refine ⟨_, _, rfl, ?_⟩
  exact (claim_C5 sampleDoc "xs" _ _ rfl (by decide) rfl).1

/-- C6: the rewriter only changes the values of existing `type` attributes
of the parsed tree: the node structure (paths), every tag, every attribute
other than `type`, the presence of each `type` attribute, and the
namespace map are all preserved. -/
theorem claim_C6 (doc : XDoc) :
    allPaths (processXsd doc).root = allPaths doc.root ∧
    (∀ p, tagAt (processXsd doc).root p = tagAt doc.root p) ∧
    (∀ p k, k ≠ "type" →
      attrAt (processXsd doc).root p k = attrAt doc.root p k) ∧
    (∀ p, (typeAt (processXsd doc).root p).isSome =
      (typeAt doc.root p).isSome) ∧
    (processXsd doc).nsmap = doc.nsmap := by
  have hgen : ∀ t' : XElem,
      Evolves ("" ++ ":") doc.root t' → True := fun _ _ => trivial
  rcases hfx : findXsPfx doc.nsmap with _ | pfx
  · rw [processXsd_no_ns doc hfx]
    exact ⟨rfl, fun p => rfl, fun p k _ => rfl, fun p => rfl, rfl⟩
  · by_cases hgc : gcFind pfx doc.root = []
    · rw [processXsd_no_gc doc pfx hfx hgc]
      exact ⟨rfl, fun p => rfl, fun p k _ => rfl, fun p => rfl, rfl⟩
    · obtain ⟨t1, pr, hloop, hev1, _, _, _, _⟩ :=
        bfsLoop_run pfx doc.root (gcFind pfx doc.root)
      rw [processXsd_run doc pfx t1 pr hfx hgc hloop]
      have hevf : Evolves (pfx ++ ":") doc.root
          (finalPass (pfx ++ ":") pfx (gcFind pfx doc.root) t1) :=
        hev1.trans (finalPass_evolves _ _ _ _)
      exact ⟨evolves_allPaths hevf, fun p => evolves_tagAt hevf p,
        fun p k hk => evolves_attrAt_other hevf p k hk,
        fun p => evolves_typeAt_isSome hevf p, rfl⟩

theorem claim_C6_w :
    attrAt (processXsd sampleDoc).root [0] "name" =
      attrAt sampleDoc.root [0] "name" :=
  (claim_C6 sampleDoc).2.2.1 [0] "name" (by decide)

/-- C7: popping a type name with no matching complexType declaration
raises no error and performs no tree modification: the loop marks the name
processed and continues with the remaining queue on the unchanged tree. -/
theorem claim_C7 (pc pfx : String) (fuel : Nat) (cur : String)
    (rest processed : List String) (t : XElem)
    (h1 : cur ∉ processed) (h2 : findFirstCT pfx t cur = none) :
    bfsLoop pc pfx (fuel + 1) (cur :: rest) processed t =
      bfsLoop pc pfx fuel rest (cur :: processed) t :=
  bfsLoop_cons_dangling pc pfx fuel cur rest processed t h1 h2

theorem claim_C7_w :
    bfsLoop "xs:" "xs" 3 ["Missing"] [] sampleDoc.root =
      bfsLoop "xs:" "xs" 2 [] ["Missing"] sampleDoc.root :=
  claim_C7 "xs:" "xs" 2 "Missing" [] [] sampleDoc.root
    (by decide) (by rfl)

/-! ### Tag-suffix facts for the merger -/

theorem pyEndsWith_elim (s p : String) (h : pyEndsWith s p = true) :
    p.data.length ≤ s.data.length ∧
      s.data.drop (s.data.length - p.data.length) = p.data := by
  simpa [pyEndsWith] using h

theorem endsWith_excl (s a b : String) (k : Nat)
    (hk : a.data.length = b.data.length + k)
    (hne : a.data.drop k ≠ b.data) :
    ¬(pyEndsWith s a = true ∧ pyEndsWith s b = true) := by
  rintro ⟨ha, hb⟩
  obtain ⟨hla, hda⟩ := pyEndsWith_elim s a ha
  obtain ⟨hlb, hdb⟩ := pyEndsWith_elim s b hb
  have harith : s.data.length - b.data.length =
      k + (s.data.length - a.data.length) := by omega
  have hdrop : s.data.drop (s.data.length - b.data.length) =
      (s.data.drop (s.data.length - a.data.length)).drop k := by
    rw [List.drop_drop, harith, Nat.add_comm]
  rw [hdb, hda] at hdrop
  exact hne hdrop.symm

theorem elem_not_type (c : XElem) (h : isElemTagB c = true) :
    isTypeTagB c = false := by
  rw [isTypeTagB, Bool.or_eq_false_iff]
  constructor
  · cases hb : pyEndsWith c.tag "\x7dcomplexType" with
    | false => rfl
    | true =>
      exact absurd ⟨hb, h⟩ (endsWith_excl _ _ _ 4 (by decide) (by decide))
  · cases hb : pyEndsWith c.tag "\x7dsimpleType" with
    | false => rfl
    | true =>
      exact absurd ⟨hb, h⟩ (endsWith_excl _ _ _ 3 (by decide) (by decide))

theorem elem_not_imp (c : XElem) (h : isElemTagB c = true) :
    isImpTagB c = false := by
  rw [isImpTagB, Bool.or_eq_false_iff]
  constructor
  · cases hb : pyEndsWith c.tag "\x7dimport" with
    | false => rfl
    | true =>
      exact absurd ⟨h, hb⟩ (endsWith_excl _ _ _ 1 (by decide) (by decide))
  · cases hb : pyEndsWith c.tag "\x7dinclude" with
    | false => rfl
    | true =>
      exact absurd ⟨h, hb⟩ (endsWith_excl _ _ _ 0 (by decide) (by decide))

theorem type_not_imp (c : XElem) (h : isTypeTagB c = true) :
    isImpTagB c = false := by
  rw [isImpTagB, Bool.or_eq_false_iff]
  rcases Bool.or_eq_true_iff.mp h with hc | hs
  · constructor
    · cases hb : pyEndsWith c.tag "\x7dimport" with
      | false => rfl
      | true =>
        exact absurd ⟨hc, hb⟩ (endsWith_excl _ _ _ 5 (by decide) (by decide))
    · cases hb : pyEndsWith c.tag "\x7dinclude" with
      | false => rfl
      | true =>
        exact absurd ⟨hc, hb⟩ (endsWith_excl _ _ _ 4 (by decide) (by decide))
  · constructor
    · cases hb : pyEndsWith c.tag "\x7dimport" with
      | false => rfl
      | true =>
        exact absurd ⟨hs, hb⟩ (endsWith_excl _ _ _ 4 (by decide) (by decide))
    · cases hb : pyEndsWith c.tag "\x7dinclude" with
      | false => rfl
      | true =>
        exact absurd ⟨hs, hb⟩ (endsWith_excl _ _ _ 3 (by decide) (by decide))

/-! ### Unfolding equations for the merger step -/

theorem processChild_elem_new (st : MergeState) (c : XElem)
    (he : isElemTagB c = true)
    (hn : getTypeName c ≠ "" ∧ getTypeName c ∉ st.mergedElements) :
    processChild st c =
      ⟨st.mergedTypes, getTypeName c :: st.mergedElements,
        st.outChildren ++ [c]⟩ := by
  simp only [processChild, he, if_true, if_pos hn]

theorem processChild_elem_old (st : MergeState) (c : XElem)
    (he : isElemTagB c = true)
    (hn : ¬(getTypeName c ≠ "" ∧ getTypeName c ∉ st.mergedElements)) :
    processChild st c = st := by
  simp only [processChild, he, if_true, if_neg hn]

theorem processChild_type_new (st : MergeState) (c : XElem)
    (he : isElemTagB c = false) (ht : isTypeTagB c = true)
    (hn : getTypeName c ≠ "" ∧ getTypeName c ∉ st.mergedTypes) :
    processChild st c =
      ⟨getTypeName c :: st.mergedTypes, st.mergedElements,
        st.outChildren ++ [c]⟩ := by
  simp only [processChild, he, ht, Bool.false_eq_true, if_false, if_true,
    if_pos hn]

theorem processChild_type_old (st : MergeState) (c : XElem)
    (he : isElemTagB c = false) (ht : isTypeTagB c = true)
    (hn : ¬(getTypeName c ≠ "" ∧ getTypeName c ∉ st.mergedTypes)) :
    processChild st c = st := by
  simp only [processChild, he, ht, Bool.false_eq_true, if_false, if_true,
    if_neg hn]

theorem processChild_imp (st : MergeState) (c : XElem)
    (he : isElemTagB c = false) (ht : isTypeTagB c = false)
    (hi : isImpTagB c = true) :
    processChild st c =
      ⟨st.mergedTypes, st.mergedElements, st.outChildren ++ [c]⟩ := by
  simp only [processChild, he, ht, hi, Bool.false_eq_true, if_false, if_true]

theorem processChild_other (st : MergeState) (c : XElem)
    (he : isElemTagB c = false) (ht : isTypeTagB c = false)
    (hi : isImpTagB c = false) :
    processChild st c = st := by
  simp only [processChild, he, ht, hi, Bool.false_eq_true, if_false]

/-! ### Dedup characterization of the merger fold -/

theorem elemNamed_true (n : String) (c : XElem) (he : isElemTagB c = true)
    (hname : getTypeName c = n) : elemNamed n c = true := by
  simp [elemNamed, he, hname]

theorem elemNamed_false_name (n : String) (c : XElem)
    (hname : getTypeName c ≠ n) : elemNamed n c = false := by
  simp [elemNamed, hname]

theorem elemNamed_false_tag (n : String) (c : XElem)
    (he : isElemTagB c = false) : elemNamed n c = false := by
  simp [elemNamed, he]

theorem typeNamed_true (n : String) (c : XElem) (ht : isTypeTagB c = true)
    (hname : getTypeName c = n) : typeNamed n c = true := by
  simp [typeNamed, ht, hname]

theorem typeNamed_false_name (n : String) (c : XElem)
    (hname : getTypeName c ≠ n) : typeNamed n c = false := by
  simp [typeNamed, hname]

theorem typeNamed_false_tag (n : String) (c : XElem)
    (ht : isTypeTagB c = false) : typeNamed n c = false := by
  simp [typeNamed, ht]

theorem mergeFold_elem (n : String) (hn : n ≠ "") :
    ∀ (cs : List XElem) (st : MergeState),
      ((cs.foldl processChild st).outChildren).filter (elemNamed n) =
        st.outChildren.filter (elemNamed n) ++
          (if n ∈ st.mergedElements then []
           else (cs.filter (elemNamed n)).take 1) := by
  intro cs
  induction cs with
  | nil =>
    intro st
    by_cases h : n ∈ st.mergedElements <;> simp [h]
  | cons c cs ih =>
    intro st
    rw [List.foldl_cons]
    by_cases he : isElemTagB c = true
    · by_cases hname : getTypeName c = n
      · have hen : elemNamed n c = true := elemNamed_true n c he hname
        by_cases hmem : n ∈ st.mergedElements
        · have hcond :
              ¬(getTypeName c ≠ "" ∧ getTypeName c ∉ st.mergedElements) := by
            rw [hname]
            intro hc
            exact hc.2 hmem
          rw [processChild_elem_old st c he hcond, ih st, if_pos hmem,
            if_pos hmem]
        · have hcond :
              getTypeName c ≠ "" ∧ getTypeName c ∉ st.mergedElements := by
            rw [hname]
            exact ⟨hn, hmem⟩
          rw [processChild_elem_new st c he hcond, ih _]
          show (st.outChildren ++ [c]).filter (elemNamed n) ++
              (if n ∈ getTypeName c :: st.mergedElements then []
               else (cs.filter (elemNamed n)).take 1) = _
          rw [if_pos (hname ▸ List.mem_cons_self _ _ :
            n ∈ getTypeName c :: st.mergedElements)]
          rw [if_neg hmem, List.filter_append,
            List.filter_cons_of_pos hen, List.filter_nil,
            List.filter_cons_of_pos hen, List.append_nil]
          simp [List.take_succ_cons, List.append_assoc]
      · have hen : elemNamed n c = false := elemNamed_false_name n c hname
        have hfc : (c :: cs).filter (elemNamed n) = cs.filter (elemNamed n) :=
          List.filter_cons_of_neg (by simp [hen])
        by_cases hcond :
            getTypeName c ≠ "" ∧ getTypeName c ∉ st.mergedElements
        · rw [processChild_elem_new st c he hcond, ih _]
          show (st.outChildren ++ [c]).filter (elemNamed n) ++
              (if n ∈ getTypeName c :: st.mergedElements then []
               else (cs.filter (elemNamed n)).take 1) = _
          have hnm : (n ∈ getTypeName c :: st.mergedElements) ↔
              n ∈ st.mergedElements := by
            constructor
            · intro h
              rcases List.mem_cons.mp h with h' | h'
              · exact absurd h'.symm hname
              · exact h'
            · exact List.mem_cons_of_mem _
          rw [List.filter_append,
            List.filter_cons_of_neg (by simp [hen]), List.filter_nil,
            List.append_nil, hfc]
          by_cases hmem : n ∈ st.mergedElements
          · rw [if_pos (hnm.mpr hmem), if_pos hmem]
          · rw [if_neg (fun h => hmem (hnm.mp h)), if_neg hmem]
        · rw [processChild_elem_old st c he hcond, ih st, hfc]
    · have he' : isElemTagB c = false := by
        cases h : isElemTagB c
        · rfl
        · exact absurd h he
      have hen : elemNamed n c = false := elemNamed_false_tag n c he'
      have hfc : (c :: cs).filter (elemNamed n) = cs.filter (elemNamed n) :=
        List.filter_cons_of_neg (by simp [hen])
      by_cases ht : isTypeTagB c = true
      · by_cases hcond : getTypeName c ≠ "" ∧ getTypeName c ∉ st.mergedTypes
        · rw [processChild_type_new st c he' ht hcond, ih _]
          show (st.outChildren ++ [c]).filter (elemNamed n) ++
              (if n ∈ st.mergedElements then []
               else (cs.filter (elemNamed n)).take 1) = _
          rw [List.filter_append,
            List.filter_cons_of_neg (by simp [hen]), List.filter_nil,
            List.append_nil, hfc]
        · rw [processChild_type_old st c he' ht hcond, ih st, hfc]
      · have ht' : isTypeTagB c = false := by
          cases h : isTypeTagB c
          · rfl
          · exact absurd h ht
        by_cases hi : isImpTagB c = true
        · rw [processChild_imp st c he' ht' hi, ih _]
          show (st.outChildren ++ [c]).filter (elemNamed n) ++
              (if n ∈ st.mergedElements then []
               else (cs.filter (elemNamed n)).take 1) = _
          rw [List.filter_append,
            List.filter_cons_of_neg (by simp [hen]), List.filter_nil,
            List.append_nil, hfc]
        · have hi' : isImpTagB c = false := by
            cases h : isImpTagB c
            · rfl
            · exact absurd h hi
          rw [processChild_other st c he' ht' hi', ih st, hfc]

theorem mergeFold_type (n : String) (hn : n ≠ "") :
    ∀ (cs : List XElem) (st : MergeState),
      ((cs.foldl processChild st).outChildren).filter (typeNamed n) =
        st.outChildren.filter (typeNamed n) ++
          (if n ∈ st.mergedTypes then []
           else (cs.filter (typeNamed n)).take 1) := by
  intro cs
  induction cs with
  | nil =>
    intro st
    by_cases h : n ∈ st.mergedTypes <;> simp [h]
  | cons c cs ih =>
    intro st
    rw [List.foldl_cons]
    by_cases he : isElemTagB c = true
    · have htn : typeNamed n c = false :=
        typeNamed_false_tag n c (elem_not_type c he)
      have hfc : (c :: cs).filter (typeNamed n) = cs.filter (typeNamed n) :=
        List.filter_cons_of_neg (by simp [htn])
      by_cases hcond : getTypeName c ≠ "" ∧ getTypeName c ∉ st.mergedElements
      · rw [processChild_elem_new st c he hcond, ih _]
        show (st.outChildren ++ [c]).filter (typeNamed n) ++
            (if n ∈ st.mergedTypes then []
             else (cs.filter (typeNamed n)).take 1) = _
        rw [List.filter_append,
          List.filter_cons_of_neg (by simp [htn]), List.filter_nil,
          List.append_nil, hfc]
      · rw [processChild_elem_old st c he hcond, ih st, hfc]
    · have he' : isElemTagB c = false := by
        cases h : isElemTagB c
        · rfl
        · exact absurd h he
      by_cases ht : isTypeTagB c = true
      · by_cases hname : getTypeName c = n
        · have htn : typeNamed n c = true := typeNamed_true n c ht hname
          by_cases hmem : n ∈ st.mergedTypes
          · have hcond :
                ¬(getTypeName c ≠ "" ∧ getTypeName c ∉ st.mergedTypes) := by
              rw [hname]
              intro hc
              exact hc.2 hmem
            rw [processChild_type_old st c he' ht hcond, ih st, if_pos hmem,
              if_pos hmem]
          · have hcond :
                getTypeName c ≠ "" ∧ getTypeName c ∉ st.mergedTypes := by
              rw [hname]
              exact ⟨hn, hmem⟩
            rw [processChild_type_new st c he' ht hcond, ih _]
            show (st.outChildren ++ [c]).filter (typeNamed n) ++
                (if n ∈ getTypeName c :: st.mergedTypes then []
                 else (cs.filter (typeNamed n)).take 1) = _
            rw [if_pos (hname ▸ List.mem_cons_self _ _ :
              n ∈ getTypeName c :: st.mergedTypes)]
            rw [if_neg hmem, List.filter_append,
              List.filter_cons_of_pos htn, List.filter_nil,
              List.filter_cons_of_pos htn, List.append_nil]
            simp [List.take_succ_cons, List.append_assoc]
        · have htn : typeNamed n c = false := typeNamed_false_name n c hname
          have hfc : (c :: cs).filter (typeNamed n) =
              cs.filter (typeNamed n) :=
            List.filter_cons_of_neg (by simp [htn])
          by_cases hcond :
              getTypeName c ≠ "" ∧ getTypeName c ∉ st.mergedTypes
          · rw [processChild_type_new st c he' ht hcond, ih _]
            show (st.outChildren ++ [c]).filter (typeNamed n) ++
                (if n ∈ getTypeName c :: st.mergedTypes then []
                 else (cs.filter (typeNamed n)).take 1) = _
            have hnm : (n ∈ getTypeName c :: st.mergedTypes) ↔
                n ∈ st.mergedTypes := by
              constructor
              · intro h
                rcases List.mem_cons.mp h with h' | h'
                · exact absurd h'.symm hname
                · exact h'
              · exact List.mem_cons_of_mem _
            rw [List.filter_append,
              List.filter_cons_of_neg (by simp [htn]), List.filter_nil,
              List.append_nil, hfc]
            by_cases hmem : n ∈ st.mergedTypes
            · rw [if_pos (hnm.mpr hmem), if_pos hmem]
            · rw [if_neg (fun h => hmem (hnm.mp h)), if_neg hmem]
          · rw [processChild_type_old st c he' ht hcond, ih st, hfc]
      · have ht' : isTypeTagB c = false := by
          cases h : isTypeTagB c
          · rfl
          · exact absurd h ht
        have htn : typeNamed n c = false := typeNamed_false_tag n c ht'
        have hfc : (c :: cs).filter (typeNamed n) = cs.filter (typeNamed n) :=
          List.filter_cons_of_neg (by simp [htn])
        by_cases hi : isImpTagB c = true
        · rw [processChild_imp st c he' ht' hi, ih _]
          show (st.outChildren ++ [c]).filter (typeNamed n) ++
              (if n ∈ st.mergedTypes then []
               else (cs.filter (typeNamed n)).take 1) = _
          rw [List.filter_append,
            List.filter_cons_of_neg (by simp [htn]), List.filter_nil,
            List.append_nil, hfc]
        · have hi' : isImpTagB c = false := by
            cases h : isImpTagB c
            · rfl
            · exact absurd h hi
          rw [processChild_other st c he' ht' hi', ih st, hfc]

theorem mergeFold_imp :
    ∀ (cs : List XElem) (st : MergeState),
      ((cs.foldl processChild st).outChildren).filter isImpTagB =
        st.outChildren.filter isImpTagB ++ cs.filter isImpTagB := by
  intro cs
  induction cs with
  | nil => intro st; simp
  | cons c cs ih =>
    intro st
    rw [List.foldl_cons]
    by_cases he : isElemTagB c = true
    · have hni : isImpTagB c = false := elem_not_imp c he
      have hfc : (c :: cs).filter isImpTagB = cs.filter isImpTagB :=
        List.filter_cons_of_neg (by simp [hni])
      by_cases hcond : getTypeName c ≠ "" ∧ getTypeName c ∉ st.mergedElements
      · rw [processChild_elem_new st c he hcond, ih _]
        show (st.outChildren ++ [c]).filter isImpTagB ++
            cs.filter isImpTagB = _
        rw [List.filter_append, List.filter_cons_of_neg (by simp [hni]),
          List.filter_nil, List.append_nil, hfc]
      · rw [processChild_elem_old st c he hcond, ih st, hfc]
    · have he' : isElemTagB c = false := by
        cases h : isElemTagB c
        · rfl
        · exact absurd h he
      by_cases ht : isTypeTagB c = true
      · have hni : isImpTagB c = false := type_not_imp c ht
        have hfc : (c :: cs).filter isImpTagB = cs.filter isImpTagB :=
          List.filter_cons_of_neg (by simp [hni])
        by_cases hcond : getTypeName c ≠ "" ∧ getTypeName c ∉ st.mergedTypes
        · rw [processChild_type_new st c he' ht hcond, ih _]
          show (st.outChildren ++ [c]).filter isImpTagB ++
              cs.filter isImpTagB = _
          rw [List.filter_append, List.filter_cons_of_neg (by simp [hni]),
            List.filter_nil, List.append_nil, hfc]
        · rw [processChild_type_old st c he' ht hcond, ih st, hfc]
      · have ht' : isTypeTagB c = false := by
          cases h : isTypeTagB c
          · rfl
          · exact absurd h ht
        by_cases hi : isImpTagB c = true
        · rw [processChild_imp st c he' ht' hi, ih _]
          show (st.outChildren ++ [c]).filter isImpTagB ++
              cs.filter isImpTagB = _
          rw [List.filter_append, List.filter_cons_of_pos hi,
            List.filter_nil, List.filter_cons_of_pos hi]
          simp [List.append_assoc]
        · have hi' : isImpTagB c = false := by
            cases h : isImpTagB c
            · rfl
            · exact absurd h hi
          have hfc : (c :: cs).filter isImpTagB = cs.filter isImpTagB :=
            List.filter_cons_of_neg (by simp [hi'])
          rw [processChild_other st c he' ht' hi', ih st, hfc]

/-! ### Structure of a merger run -/

theorem allKids_cons (d : XElem) (ds : List XElem) :
    allKids (d :: ds) = d.children ++ allKids ds := by
  simp [allKids]

theorem mergeLoad_somes :
    ∀ (ds : List XElem) (st : MergeState),
      mergeLoad (ds.map some) st = .ok (ds.foldl processSchema st) := by
  intro ds
  induction ds with
  | nil => intro st; rfl
  | cons d ds ih =>
    intro st
    show mergeLoad (ds.map some) (processSchema st d) = _
    rw [ih, List.foldl_cons]

theorem foldl_processSchema_eq :
    ∀ (ds : List XElem) (st : MergeState),
      ds.foldl processSchema st = (allKids ds).foldl processChild st := by
  intro ds
  induction ds with
  | nil => intro st; rfl
  | cons d ds ih =>
    intro st
    rw [List.foldl_cons, allKids_cons, List.foldl_append, ih]
    rfl

theorem mergeSchemas_somes (d : XElem) (ds : List XElem) :
    mergeSchemas (some d :: ds.map some) =
      .ok (.node schemaTag (copyAttrs d.attrs)
        ((allKids (d :: ds)).foldl processChild ⟨[], [], []⟩).outChildren) := by
  show (match mergeLoad (ds.map some) (processSchema ⟨[], [], []⟩ d) with
    | Except.error e => (Except.error e : Except Unit XElem)
    | Except.ok st =>
      Except.ok (XElem.node schemaTag (copyAttrs d.attrs) st.outChildren)) = _
  rw [mergeLoad_somes]
  rw [foldl_processSchema_eq]
  rw [allKids_cons, List.foldl_append]
  rfl

theorem mergeLoad_err :
    ∀ (fs : List (Option XElem)) (st : MergeState), none ∈ fs →
      mergeLoad fs st = .error () := by
  intro fs
  induction fs with
  | nil => intro st h; exact absurd h (List.not_mem_nil none)
  | cons f fs ih =>
    intro st h
    cases f with
    | none => rfl
    | some r =>
      have hm : none ∈ fs := by
        rcases List.mem_cons.mp h with h' | h'
        · exact absurd h' (by simp)
        · exact h'
      show mergeLoad fs (processSchema st r) = _
      exact ih _ hm

theorem mergeSchemas_ok (files : List (Option XElem)) (m : XElem)
    (h : mergeSchemas files = .ok m) :
    ∃ r rest st, files = some r :: rest ∧
      mergeLoad rest (processSchema ⟨[], [], []⟩ r) = .ok st ∧
      m = .node schemaTag (copyAttrs r.attrs) st.outChildren := by
  cases files with
  | nil => exact absurd h (by simp [mergeSchemas])
  | cons f rest =>
    cases f with
    | none => exact absurd h (by simp [mergeSchemas])
    | some r =>
      cases hml : mergeLoad rest (processSchema ⟨[], [], []⟩ r) with
      | error e =>
        rw [show mergeSchemas (some r :: rest) =
            (match mergeLoad rest (processSchema ⟨[], [], []⟩ r) with
              | .error e => Except.error e
              | .ok st =>
                .ok (.node schemaTag (copyAttrs r.attrs) st.outChildren))
          from rfl, hml] at h
        exact absurd h (by simp)
      | ok st =>
        rw [show mergeSchemas (some r :: rest) =
            (match mergeLoad rest (processSchema ⟨[], [], []⟩ r) with
              | .error e => Except.error e
              | .ok st =>
                .ok (.node schemaTag (copyAttrs r.attrs) st.outChildren))
          from rfl, hml] at h
        refine ⟨r, rest, st, rfl, hml, ?_⟩
        injection h with h
        exact h.symm

theorem setKey_not_mem (a : List (String × String)) (k v : String)
    (h : ∀ kv ∈ a, kv.1 ≠ k) : setKey a k v = a ++ [(k, v)] := by
  induction a with
  | nil => rfl
  | cons kv rest ih =>
    have hk : kv.1 ≠ k := h kv (List.mem_cons_self kv rest)
    show (if kv.1 == k then (k, v) :: rest else kv :: setKey rest k v) = _
    rw [if_neg (by simpa using hk)]
    rw [ih (fun kv' h' => h kv' (List.mem_cons_of_mem _ h'))]
    rfl

theorem copyAttrs_acc :
    ∀ (a acc : List (String × String)), (a.map Prod.fst).Nodup →
      (∀ kv ∈ a, ∀ kv' ∈ acc, kv'.1 ≠ kv.1) →
      a.foldl (fun acc kv => setKey acc kv.1 kv.2) acc = acc ++ a := by
  intro a
  induction a with
  | nil => intro acc _ _; simp
  | cons kv rest ih =>
    intro acc hnd hdisj
    rw [List.foldl_cons]
    have hset : setKey acc kv.1 kv.2 = acc ++ [kv] := by
      rw [setKey_not_mem acc kv.1 kv.2
        (fun kv' h' => hdisj kv (List.mem_cons_self kv rest) kv' h')]
    rw [hset]
    have hnd' : (rest.map Prod.fst).Nodup := by
      rw [List.map_cons] at hnd
      exact (List.nodup_cons.mp hnd).2
    have hhead : kv.1 ∉ rest.map Prod.fst := by
      rw [List.map_cons] at hnd
      exact (List.nodup_cons.mp hnd).1
    have hdisj' : ∀ kv2 ∈ rest, ∀ kv' ∈ acc ++ [kv], kv'.1 ≠ kv2.1 := by
      intro kv2 h2 kv' h'
      rcases List.mem_append.mp h' with hin | hin
      · exact hdisj kv2 (List.mem_cons_of_mem _ h2) kv' hin
      · have : kv' = kv := by simpa using hin
        subst this
        intro hc
        exact hhead (hc ▸ List.mem_map_of_mem Prod.fst h2)
    rw [ih (acc ++ [kv]) hnd' hdisj']
    simp [List.append_assoc]

theorem copyAttrs_self (a : List (String × String))
    (h : (a.map Prod.fst).Nodup) : copyAttrs a = a := by
  rw [copyAttrs, copyAttrs_acc a [] h (fun kv _ kv' h' =>
    absurd h' (List.not_mem_nil kv'))]
  rfl

/-! ### Only named element/type children and imports ever reach the output -/

theorem kinds_processChild (st : MergeState) (c0 : XElem)
    (h : ∀ c ∈ st.outChildren,
      (isElemTagB c = true ∧ getTypeName c ≠ "") ∨
      (isTypeTagB c = true ∧ getTypeName c ≠ "") ∨ isImpTagB c = true) :
    ∀ c ∈ (processChild st c0).outChildren,
      (isElemTagB c = true ∧ getTypeName c ≠ "") ∨
      (isTypeTagB c = true ∧ getTypeName c ≠ "") ∨ isImpTagB c = true := by
  by_cases he : isElemTagB c0 = true
  · by_cases hcond : getTypeName c0 ≠ "" ∧ getTypeName c0 ∉ st.mergedElements
    · rw [processChild_elem_new st c0 he hcond]
      intro c hc
      rcases List.mem_append.mp hc with h' | h'
      · exact h c h'
      · have : c = c0 := by simpa using h'
        exact Or.inl (this ▸ ⟨he, hcond.1⟩)
    · rw [processChild_elem_old st c0 he hcond]
      exact h
  · have he' : isElemTagB c0 = false := by
      cases hb : isElemTagB c0
      · rfl
      · exact absurd hb he
    by_cases ht : isTypeTagB c0 = true
    · by_cases hcond : getTypeName c0 ≠ "" ∧ getTypeName c0 ∉ st.mergedTypes
      · rw [processChild_type_new st c0 he' ht hcond]
        intro c hc
        rcases List.mem_append.mp hc with h' | h'
        · exact h c h'
        · have : c = c0 := by simpa using h'
          exact Or.inr (Or.inl (this ▸ ⟨ht, hcond.1⟩))
      · rw [processChild_type_old st c0 he' ht hcond]
        exact h
    · have ht' : isTypeTagB c0 = false := by
        cases hb : isTypeTagB c0
        · rfl
        · exact absurd hb ht
      by_cases hi : isImpTagB c0 = true
      · rw [processChild_imp st c0 he' ht' hi]
        intro c hc
        rcases List.mem_append.mp hc with h' | h'
        · exact h c h'
        · have : c = c0 := by simpa using h'
          exact Or.inr (Or.inr (this ▸ hi))
      · have hi' : isImpTagB c0 = false := by
          cases hb : isImpTagB c0
          · rfl
          · exact absurd hb hi
        rw [processChild_other st c0 he' ht' hi']
        exact h

theorem kinds_fold :
    ∀ (cs : List XElem) (st : MergeState),
      (∀ c ∈ st.outChildren,
        (isElemTagB c = true ∧ getTypeName c ≠ "") ∨
        (isTypeTagB c = true ∧ getTypeName c ≠ "") ∨ isImpTagB c = true) →
      ∀ c ∈ (cs.foldl processChild st).outChildren,
        (isElemTagB c = true ∧ getTypeName c ≠ "") ∨
        (isTypeTagB c = true ∧ getTypeName c ≠ "") ∨ isImpTagB c = true := by
  intro cs
  induction cs with
  | nil => intro st h; exact h
  | cons c0 cs ih =>
    intro st h
    rw [List.foldl_cons]
    exact ih _ (kinds_processChild st c0 h)

theorem kinds_mergeLoad :
    ∀ (fs : List (Option XElem)) (st st' : MergeState),
      (∀ c ∈ st.outChildren,
        (isElemTagB c = true ∧ getTypeName c ≠ "") ∨
        (isTypeTagB c = true ∧ getTypeName c ≠ "") ∨ isImpTagB c = true) →
      mergeLoad fs st = .ok st' →
      ∀ c ∈ st'.outChildren,
        (isElemTagB c = true ∧ getTypeName c ≠ "") ∨
        (isTypeTagB c = true ∧ getTypeName c ≠ "") ∨ isImpTagB c = true := by
  intro fs
  induction fs with
  | nil =>
    intro st st' h heq
    have : st = st' := by injection heq
    exact this ▸ h
  | cons f fs ih =>
    intro st st' h heq
    cases f with
    | none => exact absurd heq (by simp [mergeLoad])
    | some r =>
      exact ih _ st' (kinds_fold r.children st h) heq

/-! ### Claims about the schema merger -/

/-- C3: across the concatenated top-level children of all input files, in
file-list then document order, an element child is kept only at the first
occurrence of its name among element children, a complexType/simpleType
child only at the first occurrence of its name among type children (so a
file merged with itself keeps each distinct name exactly once), and every
import/include child is kept unconditionally. -/
theorem claim_C3 (d : XElem) (ds : List XElem) :
    ∃ m, mergeSchemas (some d :: ds.map some) = .ok m ∧
      (∀ n, n ≠ "" → m.children.filter (elemNamed n) =
        ((allKids (d :: ds)).filter (elemNamed n)).take 1) ∧
      (∀ n, n ≠ "" → m.children.filter (typeNamed n) =
        ((allKids (d :: ds)).filter (typeNamed n)).take 1) ∧
      m.children.filter isImpTagB = (allKids (d :: ds)).filter isImpTagB := by
  refine ⟨_, mergeSchemas_somes d ds, ?_, ?_, ?_⟩
  · intro n hn
    rw [children_node, mergeFold_elem n hn (allKids (d :: ds)) ⟨[], [], []⟩]
    simp
  · intro n hn
    rw [children_node, mergeFold_type n hn (allKids (d :: ds)) ⟨[], [], []⟩]
    simp
  · rw [children_node, mergeFold_imp (allKids (d :: ds)) ⟨[], [], []⟩]
    simp

theorem claim_C3_w :
    ∃ m, mergeSchemas [some mergeDocA, some mergeDocA] = .ok m ∧
      m.children.filter (typeNamed "Address") =
        ((allKids [mergeDocA, mergeDocA]).filter
          (typeNamed "Address")).take 1 := by
  obtain ⟨m, h1, _, h3, _⟩ := claim_C3 mergeDocA [mergeDocA]
  exact ⟨m, h1, h3 "Address" (by decide)⟩

/-- C8: the merged root's attributes equal exactly the attributes of the
first input file's root element, regardless of the later input files. -/
theorem claim_C8 (r : XElem) (rest : List (Option XElem)) (m : XElem)
    (h : mergeSchemas (some r :: rest) = .ok m)
    (hk : (r.attrs.map Prod.fst).Nodup) : m.attrs = r.attrs := by
  obtain ⟨r', rest', st, heq, hml, hm⟩ := mergeSchemas_ok _ m h
  injection heq with h1 h2
  injection h1 with h1
  rw [← h1] at hm
  rw [hm, attrs_node]
  exact copyAttrs_self r.attrs hk

theorem claim_C8_w :
    ∃ m, mergeSchemas [some mergeDocA, some mergeDocB] = .ok m ∧
      m.attrs = mergeDocA.attrs := by
  refine ⟨_, rfl, ?_⟩
  exact claim_C8 mergeDocA [some mergeDocB] _ rfl (by decide)

/-- C9: the merger is fail-fast: an empty input file list, or any input
file whose parse fails, makes the whole run exit with an error before any
merged output exists. -/
theorem claim_C9 :
    mergeSchemas [] = .error () ∧
    ∀ (files : List (Option XElem)), none ∈ files →
      mergeSchemas files = .error () := by
  refine ⟨rfl, ?_⟩
  intro files h
  cases files with
  | nil => exact absurd h (List.not_mem_nil none)
  | cons f rest =>
    cases f with
    | none => rfl
    | some r =>
      have hm : none ∈ rest := by
        rcases List.mem_cons.mp h with h' | h'
        · exact absurd h' (by simp)
        · exact h'
      show (match mergeLoad rest (processSchema ⟨[], [], []⟩ r) with
        | Except.error e => (Except.error e : Except Unit XElem)
        | Except.ok st =>
          Except.ok (XElem.node schemaTag (copyAttrs r.attrs)
            st.outChildren)) = _
      rw [mergeLoad_err rest _ hm]

theorem claim_C9_w :
    mergeSchemas [some mergeDocA, none] = .error () :=
  claim_C9.2 [some mergeDocA, none] (List.Mem.tail _ (List.Mem.head _))

/-- C10: any top-level child that is an element, complexType, or
simpleType with a missing or empty name, and any top-level child of any
other kind, is silently omitted: every child of the merged root is a named
element child, a named type child, or an import/include child. -/
theorem claim_C10 (files : List (Option XElem)) (m : XElem)
    (h : mergeSchemas files = .ok m) :
    ∀ c ∈ m.children,
      (isElemTagB c = true ∧ getTypeName c ≠ "") ∨
      (isTypeTagB c = true ∧ getTypeName c ≠ "") ∨ isImpTagB c = true := by
  obtain ⟨r, rest, st, heq, hml, hm⟩ := mergeSchemas_ok files m h
  have h1 := kinds_fold r.children ⟨[], [], []⟩
    (fun c hc => absurd hc (List.not_mem_nil c))
  have h2 := kinds_mergeLoad rest _ st h1 hml
  rw [hm, children_node]
  exact h2

theorem claim_C10_w :
    (isElemTagB (xsdE "element" [("name", "root"), ("type", "Address")] []) =
        true ∧
      getTypeName
        (xsdE "element" [("name", "root"), ("type", "Address")] []) ≠ "") ∨
    (isTypeTagB (xsdE "element" [("name", "root"), ("type", "Address")] []) =
        true ∧
      getTypeName
        (xsdE "element" [("name", "root"), ("type", "Address")] []) ≠ "") ∨
    isImpTagB (xsdE "element" [("name", "root"), ("type", "Address")] []) =
      true :=
  claim_C10 [some mergeDocA] _ rfl
    (xsdE "element" [("name", "root"), ("type", "Address")] [])
    (List.Mem.head _)
